import Mathlib

/-!
The program exrmultipart: address parsing, name uniquification, combine and separate.

A shallow embedding of `src/bin/exrmultipart/exrmultipart.cpp` and theorems about it.

* `std::string` is a list of characters (`Str`); `rfind`, `substr` follow the C++ library.
* `exit (1)` is an `Except.error` carrying the message that was printed.
* The OpenEXR library (headers, input and output containers, `copyPixels`) is outside the
  file; what the program observes of it is modelled explicitly and marked as such.
-/

set_option autoImplicit false

namespace ExrMultipart

/-! ## Strings -/

/-- A `std::string`: a finite sequence of characters. -/
abbrev Str := List Char

/-- Positions `std::string::rfind (pat)` can return: the highest position at which `pat`
occurs in `s`, `none` standing for `npos`. -/
def rfind (s pat : Str) : Option Nat :=
  match s with
  | [] => if pat = [] then some 0 else none
  | c :: t =>
    match rfind t pat with
    | some p => some (p + 1)
    | none => if pat.isPrefixOf (c :: t) then some 0 else none

/-- The two-argument `std::string::substr (pos, n)`: at most `n` characters from `pos`. -/
def substr (s : Str) (pos n : Nat) : Str := (s.drop pos).take n

/-- The one-argument `std::string::substr (pos)`: everything from `pos` on. -/
def substrFrom (s : Str) (pos : Nat) : Str := s.drop pos

/-- The path separator `IMF_PATH_SEPARATOR` of the default (non-Windows) branch. -/
def IMF_PATH_SEPARATOR : Str := "/".toList

/-- The function `is_number`: advance over leading digits, accept when the string is not
empty and the scan reached its end. -/
def is_number (s : Str) : Bool :=
  let it := s.dropWhile Char.isDigit
  !s.isEmpty && it.isEmpty

/-- The C function `isspace` in the "C" locale. -/
def isspace (c : Char) : Bool :=
  c = ' ' || (9 ≤ c.toNat && c.toNat ≤ 13)

/-- Digit accumulation of `atoi`: consume decimal digits, stop at the first other character. -/
def atoi_digits (acc : Nat) : Str → Nat
  | [] => acc
  | c :: cs => if c.isDigit then atoi_digits (10 * acc + (c.toNat - 48)) cs else acc

/-- Conversion of an integer to the 32-bit two's complement `int`. -/
def to_int (n : Int) : Int := (n + 2 ^ 31) % 2 ^ 32 - 2 ^ 31

/-- The C library function `strtol` on a value outside the range of `long` (64 bits): the
result saturates at `LONG_MIN` or `LONG_MAX`. -/
def strtol_clamp (n : Int) : Int := max (-(2 ^ 63)) (min n (2 ^ 63 - 1))

/-- The C library function `atoi`, returning `int`: skip white space, read an optional sign
and the decimal digits.  As in the C library it is `(int) strtol (s, NULL, 10)`: the value
saturates to a `long` and is then converted to `int`, which keeps its low 32 bits.  The C
standard leaves the result undefined when the value does not fit an `int`. -/
def atoi (s : Str) : Int :=
  match s.dropWhile isspace with
  | '-' :: r => to_int (strtol_clamp (-(atoi_digits 0 r : Int)))
  | '+' :: r => to_int (strtol_clamp (atoi_digits 0 r))
  | r => to_int (strtol_clamp (atoi_digits 0 r))

/-! ## Errors -/

/-- The places where the program prints a message and calls `exit (1)`. -/
inductive Err
  /-- The message "ERROR: part number must be a number" of `parse_filename`. -/
  | partNumberMustBeNumber
  /-- The message "Software Error: header does not have a valid name" of `make_unique_names`. -/
  | headerWithoutName
  /-- The message "ERROR: input and output file names cannot be the same." of `filename_check`. -/
  | sameFileNames
  /-- The message "ERROR: you asked for part ... which only has ... parts" of `combine`. -/
  | partOutOfRange
  /-- The message "ERROR: -separate only take one input file" of `separate`. -/
  | separateOneInput
  /-- A library exception (`IEX_NAMESPACE::BaseExc`): printed and `exit (1)` where it is caught,
  abnormal termination where it is not. -/
  | libraryException
  /-- The message "ERROR: found no input files" of `main`, which ends the run before any of
  `combine`, `separate` or `convert` is called with an empty input list. -/
  | noInputFiles
  /-- Not an outcome of the program: the embedding of a loop ran out of fuel. -/
  | outOfFuel
  deriving DecidableEq, Repr

instance instDecidableEqExcept {ε α : Type} [DecidableEq ε] [DecidableEq α] :
    DecidableEq (Except ε α) := fun a b =>
  match a, b with
  | .ok x, .ok y => if h : x = y then isTrue (by rw [h]) else isFalse (fun e => h (by cases e; rfl))
  | .error x, .error y =>
    if h : x = y then isTrue (by rw [h]) else isFalse (fun e => h (by cases e; rfl))
  | .ok _, .error _ => isFalse (fun e => by cases e)
  | .error _, .ok _ => isFalse (fun e => by cases e)

/-! ## AddressParser: `parse_partname` and `parse_filename` -/

/-- The function `parse_partname`: strip the directory, cut at the last ".exr", and drop a
frame number that ends what is left. -/
def parse_partname (part_name : Str) : Str :=
  -- strip off a path delimitation
  let part_name :=
    match rfind part_name IMF_PATH_SEPARATOR with
    | some posSlash => substrFrom part_name (posSlash + 1)
    | none => part_name
  -- strip the exr ext
  match rfind part_name ".exr".toList with
  | some pos =>
    let part_name := substr part_name 0 pos
    -- strip off the frame number
    match rfind part_name ".".toList with
    | some pos2 =>
      let frame := substr part_name (pos2 + 1) pos
      if is_number frame then substr part_name 0 pos2 else part_name
    | none => part_name
  | none => part_name

/-- The four reference parameters of `parse_filename` after the call. -/
structure ParsedName where
  file_name : Str
  part_name : Str
  force_part_name : Bool
  part_num : Int
  deriving DecidableEq, Repr

/-- The function `parse_filename`: `<...>::<partname>` gives the part name, otherwise the
stripped file name does; `<file>:<partnum>` gives the part number, otherwise `-1` (all parts). -/
def parse_filename (file_name : Str) : Except Err ParsedName :=
  let (file_name, part_name, force_part_name) :=
    match rfind file_name "::".toList with
    | some doublecolon =>
      (substr file_name 0 doublecolon, substrFrom file_name (doublecolon + 2), true)
    | none => (file_name, parse_partname file_name, false)
  match rfind file_name ":".toList with
  | none => .ok ⟨file_name, part_name, force_part_name, -1⟩
  | some colon =>
    let num := substrFrom file_name (colon + 1)
    if is_number num then
      .ok ⟨substr file_name 0 colon, part_name, force_part_name, atoi num⟩
    else
      .error .partNumberMustBeNumber

/-- The second half of `parse_filename` (from `size_t colon = file_name.rfind (':')` on), for
the values the first half leaves in `file_name`, `part_name` and `force_part_name`. -/
def parse_filename_partnum (file_name part_name : Str) (force_part_name : Bool) :
    Except Err ParsedName :=
  match rfind file_name ":".toList with
  | none => .ok ⟨file_name, part_name, force_part_name, -1⟩
  | some colon =>
    let num := substrFrom file_name (colon + 1)
    if is_number num then
      .ok ⟨substr file_name 0 colon, part_name, force_part_name, atoi num⟩
    else
      .error .partNumberMustBeNumber

/-! ## Headers and containers (library boundary) -/

/-- Modelled from the spec: pixel type of a channel (library type `PixelType`). -/
inductive PixelType
  | UINT
  | HALF
  | FLOAT
  deriving DecidableEq, Repr

/-- Modelled from the spec: one entry of a channel list (library type `Channel` with its name). -/
structure Channel where
  name : Str
  type : PixelType
  deriving DecidableEq, Repr

/-- Modelled from the spec: library type `V2i`. -/
structure V2i where
  x : Int
  y : Int
  deriving DecidableEq, Repr

/-- Modelled from the spec: library type `Box2i`, the rectangular pixel bounds of a part. -/
structure Box2i where
  min : V2i
  max : V2i
  deriving DecidableEq, Repr

/-- Modelled from the spec: library type `Header`, the metadata record of one part: optional
name, type tag, channel list, data window, optional view attribute. -/
structure Header where
  name : Option Str
  type : Str
  channels : List Channel
  dataWindow : Box2i
  view : Option Str
  deriving DecidableEq, Repr

/-- Modelled from the spec: `Header::hasName`. -/
def Header.hasName (h : Header) : Bool := h.name.isSome

/-- Modelled from the spec: `Header::setName`. -/
def Header.setName (h : Header) (n : Str) : Header := { h with name := some n }

/-- Modelled from the spec: `Header::setView`. -/
def Header.setView (h : Header) (v : Str) : Header := { h with view := some v }

/-- Modelled from the spec: the type tag `SCANLINEIMAGE` of `ImfPartType.h`. -/
def SCANLINEIMAGE : Str := "scanlineimage".toList

/-- Modelled from the spec: the type tag `TILEDIMAGE` of `ImfPartType.h`. -/
def TILEDIMAGE : Str := "tiledimage".toList

/-- Modelled from the spec: the type tag `DEEPSCANLINE` of `ImfPartType.h`. -/
def DEEPSCANLINE : Str := "deepscanline".toList

/-- Modelled from the spec: the type tag `DEEPTILE` of `ImfPartType.h`. -/
def DEEPTILE : Str := "deeptile".toList

/-- Modelled from the spec: the readable containers, each path with the headers of its parts
in order.  The first entry for a path is the one that is read. -/
abbrev FileSystem := List (Str × List Header)

/-- Modelled from the spec: the constructor `MultiPartInputFile (path)`; `none` when it
throws because the file cannot be read. -/
def open_input (fs : FileSystem) (path : Str) : Option (List Header) :=
  match fs with
  | [] => none
  | (p, parts) :: rest => if path = p then some parts else open_input rest path

/-- Modelled from the spec: `MultiPartInputFile::header (n)`; `none` when it throws because
`n` is not a part of the file. -/
def input_header (parts : List Header) (n : Int) : Option Header :=
  if n < 0 then none else parts.get? n.toNat

/-- The four copy routines `copy_scanline`, `copy_tile`, `copy_scanlinedeep`, `copy_tiledeep`;
each binds the reader and writer of its representation and calls `copyPixels`. -/
inductive CopyRoutine
  | copy_scanline
  | copy_tile
  | copy_scanlinedeep
  | copy_tiledeep
  deriving DecidableEq, Repr

/-- What a run does to the output side: constructions of an output container from a header
array, and calls of a copy routine (input file, input part, output file, output part). -/
inductive Event
  | construct (outname : Str) (headers : List Header) (override : Bool)
  | copy (routine : CopyRoutine) (input : Str) (inPart : Int) (output : Str) (outPart : Nat)
  deriving DecidableEq, Repr

/-- A run of `combine` or `separate`: the output-side events in order, and how it ended
(`ok` is the final "Success" message). -/
structure Run where
  events : List Event
  status : Except Err Unit
  deriving DecidableEq

/-- The do-while loop of `make_unique_names`.  `s` is the content of the `ostringstream`
(`s.clear ()` resets the error flags, not the content), `backup` the attempt counter.  Each
iteration appends `<name>_<i>_<backup>` to the stream and tests the whole content against the
committed names.  `none` when the fuel is used up. -/
def unique_name_loop (names : List Str) (hname : Str) (i : Nat) : Nat → Str → Nat → Option Str
  | 0, _, _ => none
  | fuel + 1, s, backup =>
    let s := s ++
      (hname ++ "_".toList ++ Nat.toDigits 10 i ++ "_".toList ++ Nat.toDigits 10 backup)
    if s ∈ names then unique_name_loop names hname i fuel s (backup + 1) else some s

/-- The for loop of `make_unique_names` from index `i` on, `names` being the committed set. -/
def make_unique_names_from (names : List Str) (i : Nat) : List Header → Except Err (List Header)
  | [] => .ok []
  | h :: rest =>
    match h.name with
    | none => .error .headerWithoutName
    | some base_name =>
      -- check name has already been used, if so add a _<number> to it
      if base_name ∈ names then
        match unique_name_loop names base_name i (names.length + 1) [] 1 with
        | none => .error .outOfFuel
        | some s =>
          match make_unique_names_from (names.insert s) (i + 1) rest with
          | .ok out => .ok (h.setName s :: out)
          | .error e => .error e
      else
        match make_unique_names_from (names.insert base_name) (i + 1) rest with
        | .ok out => .ok (h :: out)
        | .error e => .error e

/-- The function `make_unique_names`. -/
def make_unique_names (headers : List Header) : Except Err (List Header) :=
  make_unique_names_from [] 0 headers

/-! ## Orchestrators: `filename_check`, `combine`, `separate` -/

/-- The function `filename_check`. -/
def filename_check : List Str → Str → Except Err Unit
  | [], _ => .ok ()
  | n :: rest, bname => if bname = n then .error .sameFileNames else filename_check rest bname

/-- The local vectors of `combine` that the input loop fills. -/
structure CombineVars where
  partnums : List Int
  inputs : List Str
  headers : List Header
  fornamecheck : List Str
  deriving DecidableEq

/-- The header pushed for one part: renamed when it has no name or the name is forced, then
given the view of the input when there is one. -/
def combine_header (h : Header) (partname : Str) (forcepartname : Bool) (view : Option Str) :
    Header :=
  let h := if !h.hasName || forcepartname then h.setName partname else h
  match view with
  | some v => h.setView v
  | none => h

/-- One iteration of the input loop of `combine`, for the input `inp.1` with view `inp.2`. -/
def combine_input (fs : FileSystem) (v : CombineVars) (inp : Str × Option Str) :
    Except Err CombineVars :=
  match parse_filename inp.1 with
  | .error e => .error e
  | .ok p =>
    let filename := p.file_name
    if p.part_num = -1 then
      let fornamecheck := v.fornamecheck ++ [filename]
      match open_input fs filename with
      | none => .error .libraryException
      | some parts =>
        let numparts := parts.length
        -- copy header from all parts of input to our header array
        .ok ⟨v.partnums ++ (List.range numparts).map Int.ofNat,
             v.inputs ++ List.replicate numparts filename,
             v.headers ++ parts.map
               (fun h => combine_header h p.part_name p.force_part_name inp.2),
             fornamecheck⟩
    else
      let fornamecheck := v.fornamecheck ++ [filename]
      match open_input fs filename with
      | none => .error .libraryException
      | some parts =>
        if p.part_num ≥ parts.length then .error .partOutOfRange
        else
          -- copy header from required part of input to our header array
          match input_header parts p.part_num with
          | none => .error .libraryException
          | some h =>
            .ok ⟨v.partnums ++ [p.part_num],
                 v.inputs ++ [filename],
                 v.headers ++ [combine_header h p.part_name p.force_part_name inp.2],
                 fornamecheck⟩

/-- The input loop of `combine`. -/
def combine_inputs (fs : FileSystem) (v : CombineVars) :
    List (Str × Option Str) → Except Err CombineVars
  | [] => .ok v
  | inp :: rest =>
    match combine_input fs v inp with
    | .error e => .error e
    | .ok v1 => combine_inputs fs v1 rest

/-- The type dispatch of `combine` for output part `p`. -/
def combine_copy_part (input : Str) (partnum : Int) (outname : Str) (p : Nat) (type : Str) :
    List Event :=
  if type = SCANLINEIMAGE then [.copy .copy_scanline input partnum outname p]
  else if type = TILEDIMAGE then [.copy .copy_tile input partnum outname p]
  else if type = DEEPSCANLINE then [.copy .copy_scanlinedeep input partnum outname p]
  else if type = DEEPTILE then [.copy .copy_tiledeep input partnum outname p]
  else []

/-- The copy loop of `combine` from part `p` on; the three vectors have the same length. -/
def combine_copy_loop (outname : Str) : Nat → List Header → List Str → List Int → List Event
  | p, h :: hs, i :: is, n :: ns =>
    combine_copy_part i n outname p h.type ++ combine_copy_loop outname (p + 1) hs is ns
  | _, _, _, _ => []

/-- The function `combine`.  `in_` pairs each input with its entry of `views`; `accepts` tells
whether the library constructs an output container from the arguments or throws. -/
def combine (accepts : Str → List Header → Bool → Bool) (fs : FileSystem)
    (in_ : List (Str × Option Str)) (outname : Str) (override : Bool) : Run :=
  let numInputs := in_.length
  match combine_inputs fs ⟨[], [], [], []⟩ in_ with
  | .error e => ⟨[], .error e⟩
  | .ok v =>
    match filename_check v.fornamecheck outname with
    | .error e => ⟨[], .error e⟩
    | .ok () =>
      -- sort out names - make unique
      match (if numInputs > 1 then make_unique_names v.headers else .ok v.headers) with
      | .error e => ⟨[], .error e⟩
      | .ok headers =>
        -- early bail if need be
        if !accepts outname headers override then
          ⟨[.construct outname headers override], .error .libraryException⟩
        else
          ⟨[.construct outname headers override, .construct outname headers override]
              ++ combine_copy_loop outname 0 headers v.inputs v.partnums,
            .ok ()⟩

/-- Conversion of an integer to `size_t`, the unsigned 64-bit type. -/
def to_size_t (n : Int) : Int := n % 2 ^ 64

/-- Modelled from the spec: `Box2i::isEmpty`, a box whose maximum lies below its minimum in
some coordinate. -/
def Box2i.isEmpty (b : Box2i) : Bool :=
  decide (b.max.x < b.min.x) || decide (b.max.y < b.min.y)

/-- Modelled from the spec: `Box2i::size`, `max - min` in `int`, and zero for an empty box. -/
def Box2i.size (b : Box2i) : V2i :=
  if b.isEmpty then ⟨0, 0⟩ else ⟨to_int (b.max.x - b.min.x), to_int (b.max.y - b.min.y)⟩

/-- The local variable `int pixel_count` of `convert`. -/
def pixel_count (dataWindow : Box2i) : Int :=
  to_int (to_int (dataWindow.size.y + 1) * to_int (dataWindow.size.x + 1))

/-- The local variable `int pixel_width` of `convert`. -/
def pixel_width (dataWindow : Box2i) : Int := to_int (dataWindow.size.x + 1)

/-- The local variable `int pixel_base` of `convert`: offset in pixels between base of array
and 0,0. -/
def pixel_base (dataWindow : Box2i) : Int :=
  to_int (to_int (dataWindow.min.y * pixel_width dataWindow) + dataWindow.min.x)

/-- The local variable `size_t samplesize` of `convert`: `sizeof (float)`, which is 4, and
`sizeof (half)`, which is 2, for a channel of type `HALF`. -/
def samplesize (type : PixelType) : Int :=
  if type = .HALF then 2 else 4

/-- The size in bytes that `convert` gives the buffer of a channel,
`channelstore[i].resize (samplesize * pixel_count)`, a product in `size_t`. -/
def channelstore_size (dataWindow : Box2i) (type : PixelType) : Int :=
  (samplesize type * to_size_t (pixel_count dataWindow)) % 2 ^ 64

/-- Modelled from the spec: library type `Slice`: pixel type, base, `xStride`, `yStride`.  The
base is an address; it is kept as its distance in bytes from the first byte
`&channelstore[i][0]` of the buffer, modulo `2 ^ 64`. -/
structure Slice where
  type : PixelType
  base : Int
  xStride : Int
  yStride : Int
  deriving DecidableEq, Repr

/-- The slice that `convert` inserts into the input and the output frame buffer for a
channel: `Slice (type, &channelstore[i][0] - pixel_base * samplesize, samplesize,
pixel_width * samplesize)`.  Both products are in `size_t`. -/
def convert_slice (dataWindow : Box2i) (type : PixelType) : Slice :=
  ⟨type, (0 - (to_size_t (pixel_base dataWindow) * samplesize type) % 2 ^ 64) % 2 ^ 64,
    samplesize type, (to_size_t (pixel_width dataWindow) * samplesize type) % 2 ^ 64⟩

/-- Modelled from the spec: the byte that a slice addresses for the pixel `(x, y)`, at the
address `base + x * xStride + y * yStride`, as its distance from the first byte of the buffer,
modulo `2 ^ 64`. -/
def Slice.pixel_offset (s : Slice) (x y : Int) : Int :=
  (s.base + x * s.xStride + y * s.yStride) % 2 ^ 64

/-! ## Sample data -/

/-- A scan line header with the given name, a single pixel data window and no channels. -/
def sample_header (name : Str) : Header :=
  ⟨some name, SCANLINEIMAGE, [], ⟨⟨0, 0⟩, ⟨0, 0⟩⟩, none⟩

/-- A library that constructs an output container from any arguments. -/
def accepts_all : Str → List Header → Bool → Bool := fun _ _ _ => true

/-- A library that constructs an output container when the names of the headers are pairwise
distinct. -/
def accepts_distinct : Str → List Header → Bool → Bool :=
  fun _ hs _ => decide ((hs.map (·.name)).Nodup)

/-- A file system with the one-part file "a.exr", the one-part file "b.exr" and the two-part
file "m.exr". -/
def sample_files : FileSystem :=
  [("a.exr".toList, [sample_header "p".toList]),
   ("b.exr".toList, [sample_header "p".toList]),
   ("m.exr".toList, [sample_header "a".toList, sample_header "b".toList])]

/-- A non-empty string of decimal digits. -/
def IsDigitString (s : Str) : Prop := s ≠ [] ∧ ∀ c ∈ s, c ∈ "0123456789".toList

instance instDecidableIsDigitString : DecidablePred IsDigitString := fun s => by
  unfold IsDigitString; infer_instance

/-- The number that a string of decimal digits denotes. -/
def decimal_value (s : Str) : Nat := s.foldl (fun n c => 10 * n + (c.toNat - '0'.toNat)) 0

/-- The relation `NameStripped T L`: `L` is the token `T` without its "::name" suffix, the
split being at the last "::" of `T`; a token without "::" is left as it is. -/
def NameStripped (T L : Str) : Prop :=
  (¬ "::".toList <:+: T ∧ L = T) ∨
    ∃ name, T = L ++ "::".toList ++ name ∧ ¬ "::".toList <:+: ':' :: name

/-- The text after the last path separator of a path (the whole path when it has none). -/
def final_segment (path : Str) : Str := (path.reverse.takeWhile (· ≠ '/')).reverse

/-- Removal of a frame number: when the text after the last dot is a non-empty string of
digits, that text and the dot are removed. -/
def strip_frame (stem : Str) : Str :=
  let frame := (stem.reverse.takeWhile (· ≠ '.')).reverse
  if '.' ∈ stem ∧ IsDigitString frame then stem.take (stem.length - (frame.length + 1)) else stem

/-- The default part name as the specification words it: the final segment of the path, without
a trailing ".exr" and then without a frame number; a segment that does not end in ".exr" is
left unchanged. -/
def spec_part_name (path : Str) : Str :=
  let seg := final_segment path
  if ".exr".toList <:+ seg then strip_frame (seg.take (seg.length - 4)) else seg

/-- The copy routine that matches a type tag: `copy_scanline` for "scanlineimage", `copy_tile`
for "tiledimage", `copy_scanlinedeep` for "deepscanline", `copy_tiledeep` for "deeptile"; none
for any other tag. -/
def matching_routine (type : Str) : Option CopyRoutine :=
  if type = "scanlineimage".toList then some .copy_scanline
  else if type = "tiledimage".toList then some .copy_tile
  else if type = "deepscanline".toList then some .copy_scanlinedeep
  else if type = "deeptile".toList then some .copy_tiledeep
  else none

/-- An input of `combine` is served: its token parses, its file opens, and a part asked for
by number exists. -/
def InputServed (fs : FileSystem) (inp : Str × Option Str) : Prop :=
  ∃ r parts, parse_filename inp.1 = .ok r ∧ open_input fs r.file_name = some parts ∧
    (r.part_num ≠ -1 → 0 ≤ r.part_num ∧ r.part_num < parts.length)

theorem rfind_eq_none_iff (s pat : Str) : rfind s pat = none ↔ ¬ pat <:+: s := by
  induction s with
  | nil =>
    by_cases h : pat = []
    · simp [rfind, h]
    · simp [rfind, h]
  | cons c t ih =>
    unfold rfind
    cases hr : rfind t pat with
    | some p =>
      have : pat <:+: t := by
        by_contra hc
        rw [← ih] at hc
        rw [hc] at hr
        cases hr
      simp [List.infix_cons_iff, this]
    | none =>
      have hn := ih.mp hr
      by_cases hp : pat <+: c :: t
      · simp [List.infix_cons_iff, hp]
      · simp [List.infix_cons_iff, hp, hn]

theorem infix_of_prefix_drop (s pat : Str) (p : Nat) (h : pat <+: s.drop p) : pat <:+: s :=
  (h.isInfix).trans (List.drop_suffix p s).isInfix

theorem rfind_eq_some_iff (s pat : Str) (hpat : pat ≠ []) (p : Nat) :
    rfind s pat = some p ↔ pat <+: s.drop p ∧ ¬ pat <:+: s.drop (p + 1) := by
  induction s generalizing p with
  | nil => simp [rfind, hpat]
  | cons c t ih =>
    unfold rfind
    cases hr : rfind t pat with
    | some q =>
      have hq := (ih q).mp hr
      cases p with
      | zero =>
        simp only [List.drop_zero, List.drop_succ_cons, zero_add]
        constructor
        · intro h; cases h
        · intro h; exact absurd (infix_of_prefix_drop t pat q hq.1) h.2
      | succ p =>
        simp only [List.drop_succ_cons]
        rw [← ih p, hr]
        simp
    | none =>
      have hn := (rfind_eq_none_iff t pat).mp hr
      cases p with
      | zero =>
        by_cases hp : pat <+: c :: t
        · simp [hp, hn]
        · simp [hp]
      | succ p =>
        simp only [List.drop_succ_cons]
        have : ¬ pat <+: t.drop p := fun h => hn (infix_of_prefix_drop t pat p h)
        by_cases hp : pat <+: c :: t
        · simp [hp, this]
        · simp [hp, this]

theorem rfind_append (a pat b : Str) (hpat : pat ≠ [])
    (hlast : ¬ pat <:+: (pat ++ b).drop 1) : rfind (a ++ pat ++ b) pat = some a.length := by
  rw [rfind_eq_some_iff _ _ hpat]
  constructor
  · simp [List.append_assoc]
  · have : (a ++ pat ++ b).drop (a.length + 1) = (pat ++ b).drop 1 := by
      rw [List.append_assoc, ← List.drop_drop]
      simp
    rw [this]; exact hlast

theorem rfind_some_split (s pat : Str) (hpat : pat ≠ []) (p : Nat) (h : rfind s pat = some p) :
    s = s.take p ++ pat ++ s.drop (p + pat.length) ∧ (s.take p).length = p ∧
      ¬ pat <:+: (pat ++ s.drop (p + pat.length)).drop 1 := by
  obtain ⟨h1, h2⟩ := (rfind_eq_some_iff s pat hpat p).mp h
  obtain ⟨r, hr⟩ := h1
  have hd : s.drop (p + pat.length) = r := by
    rw [← List.drop_drop, ← hr]; simp
  have hs : s = s.take p ++ pat ++ r := by
    rw [List.append_assoc, hr, List.take_append_drop]
  have hlen : p ≤ s.length := by
    by_contra hc
    have : s.drop p = [] := List.drop_eq_nil_of_le (by omega)
    rw [this] at hr
    simp at hr
    exact hpat hr.1
  refine ⟨by rw [hd]; exact hs, by simp [hlen], ?_⟩
  rw [hd, hr, List.drop_drop]
  exact h2

theorem isDigit_iff (c : Char) : c.isDigit = true ↔ c ∈ "0123456789".toList := by
  constructor
  · intro h
    simp only [Char.isDigit, Bool.and_eq_true, decide_eq_true_eq] at h
    obtain ⟨h1, h2⟩ := h
    have h1' : 48 ≤ c.toNat := h1
    have h2' : c.toNat ≤ 57 := h2
    rw [← Char.ofNat_toNat c]
    generalize c.toNat = n at h1' h2'
    interval_cases n <;> decide
  · intro h
    simp only [String.toList, List.mem_cons, List.mem_singleton] at h
    rcases h with h | h | h | h | h | h | h | h | h | h | h
    all_goals first | (subst h; decide) | (simp at h)

theorem is_number_iff (s : Str) : is_number s = true ↔ IsDigitString s := by
  unfold is_number IsDigitString
  simp only [Bool.and_eq_true, Bool.not_eq_true', List.isEmpty_eq_true, List.dropWhile_eq_nil_iff]
  constructor
  · rintro ⟨h1, h2⟩
    refine ⟨fun h => by simp [h] at h1, fun c hc => (isDigit_iff c).mp (h2 c hc)⟩
  · rintro ⟨h1, h2⟩
    refine ⟨by cases s <;> simp_all, fun c hc => (isDigit_iff c).mpr (h2 c hc)⟩

theorem atoi_digits_eq (s : Str) (acc : Nat) (h : ∀ c ∈ s, c.isDigit = true) :
    atoi_digits acc s = s.foldl (fun n c => 10 * n + (c.toNat - '0'.toNat)) acc := by
  induction s generalizing acc with
  | nil => rfl
  | cons c t ih =>
    have hc : c.isDigit = true := h c (List.mem_cons_self _ _)
    simp only [atoi_digits, hc, if_true, List.foldl_cons]
    rw [ih _ (fun d hd => h d (List.mem_cons_of_mem _ hd))]
    rfl

theorem isDigit_not_space (c : Char) (h : c.isDigit = true) :
    isspace c = false ∧ c ≠ '-' ∧ c ≠ '+' := by
  have := (isDigit_iff c).mp h
  simp only [String.toList, List.mem_cons, List.mem_singleton] at this
  rcases this with h | h | h | h | h | h | h | h | h | h | h
  all_goals first | (subst h; decide) | (simp at h)

theorem atoi_of_digits (s : Str) (h : IsDigitString s) :
    atoi s = to_int (strtol_clamp (decimal_value s)) := by
  obtain ⟨hne, hall⟩ := h
  have hd : ∀ c ∈ s, c.isDigit = true := fun c hc => (isDigit_iff c).mpr (hall c hc)
  cases s with
  | nil => exact absurd rfl hne
  | cons c t =>
    obtain ⟨h1, h2, h3⟩ := isDigit_not_space c (hd c (List.mem_cons_self _ _))
    have hdw : (c :: t).dropWhile isspace = c :: t := by
      simp [List.dropWhile, h1]
    unfold atoi
    rw [hdw]
    have : (match (c :: t : Str) with
        | '-' :: r => to_int (strtol_clamp (-(atoi_digits 0 r : Int)))
        | '+' :: r => to_int (strtol_clamp (atoi_digits 0 r))
        | r => to_int (strtol_clamp (atoi_digits 0 r))) =
          to_int (strtol_clamp (atoi_digits 0 (c :: t))) := by
      split
      · rename_i heq; cases heq; exact absurd rfl h2
      · rename_i heq; cases heq; exact absurd rfl h3
      · rfl
    rw [this, atoi_digits_eq _ _ hd]
    rfl

theorem strtol_clamp_of_lt (n : Nat) (h : n < 2 ^ 31) : strtol_clamp n = n := by
  unfold strtol_clamp
  omega

theorem to_int_of_lt (n : Nat) (h : n < 2 ^ 31) : to_int n = n := by
  unfold to_int
  omega

theorem singleton_infix_iff (c : Char) (b : Str) : [c] <:+: b ↔ c ∈ b := by
  constructor
  · intro h; exact h.subset (List.mem_singleton_self c)
  · intro h
    obtain ⟨s, t, rfl⟩ := List.append_of_mem h
    exact ⟨s, t, by simp⟩

theorem rfind_char_none (s : Str) (c : Char) : rfind s [c] = none ↔ c ∉ s := by
  rw [rfind_eq_none_iff, singleton_infix_iff]

theorem rfind_char_append (a b : Str) (c : Char) (h : c ∉ b) :
    rfind (a ++ c :: b) [c] = some a.length := by
  have := rfind_append a [c] b (by simp) (by simpa [singleton_infix_iff] using h)
  simpa using this

theorem rfind_char_some (s : Str) (c : Char) (p : Nat) (h : rfind s [c] = some p) :
    s = s.take p ++ c :: s.drop (p + 1) ∧ (s.take p).length = p ∧ c ∉ s.drop (p + 1) := by
  obtain ⟨h1, h2, h3⟩ := rfind_some_split s [c] (by simp) p h
  refine ⟨by simpa using h1, h2, ?_⟩
  simpa [singleton_infix_iff] using h3

theorem last_split_of_mem (s : Str) (c : Char) (h : c ∈ s) :
    ∃ a b, s = a ++ c :: b ∧ c ∉ b := by
  cases hr : rfind s [c] with
  | none => exact absurd h ((rfind_char_none s c).mp hr)
  | some p =>
    obtain ⟨h1, _, h3⟩ := rfind_char_some s c p hr
    exact ⟨_, _, h1, h3⟩

theorem parse_filename_eq (T : Str) :
    parse_filename T =
      match rfind T "::".toList with
      | some doublecolon =>
        parse_filename_partnum (substr T 0 doublecolon) (substrFrom T (doublecolon + 2)) true
      | none => parse_filename_partnum T (parse_partname T) false := by
  unfold parse_filename parse_filename_partnum
  cases rfind T "::".toList <;> rfl

theorem parse_filename_partnum_no_colon (L n : Str) (f : Bool) (h : ':' ∉ L) :
    parse_filename_partnum L n f = .ok ⟨L, n, f, -1⟩ := by
  unfold parse_filename_partnum
  have : rfind L ":".toList = none := (rfind_char_none L ':').mpr h
  rw [this]

theorem parse_filename_partnum_colon (a b n : Str) (f : Bool) (h : ':' ∉ b) :
    parse_filename_partnum (a ++ ':' :: b) n f =
      if is_number b then .ok ⟨a, n, f, atoi b⟩ else .error .partNumberMustBeNumber := by
  unfold parse_filename_partnum
  have : rfind (a ++ ':' :: b) ":".toList = some a.length := rfind_char_append a b ':' h
  rw [this]
  simp [substrFrom, substr]

theorem parse_filename_split (L name : Str) (h : ¬ "::".toList <:+: ':' :: name) :
    parse_filename (L ++ "::".toList ++ name) = parse_filename_partnum L name true := by
  rw [parse_filename_eq]
  have : rfind (L ++ "::".toList ++ name) "::".toList = some L.length :=
    rfind_append L "::".toList name (by decide) (by simpa using h)
  rw [this]
  simp [substr, substrFrom, List.append_assoc]

theorem parse_filename_no_split (T : Str) (h : ¬ "::".toList <:+: T) :
    parse_filename T = parse_filename_partnum T (parse_partname T) false := by
  rw [parse_filename_eq, (rfind_eq_none_iff T _).mpr h]

theorem last_double_colon (T : Str) (h : "::".toList <:+: T) :
    ∃ L name, T = L ++ "::".toList ++ name ∧ ¬ "::".toList <:+: ':' :: name ∧
      ∀ L2 name2, T = L2 ++ "::".toList ++ name2 → L2.length ≤ L.length := by
  cases hr : rfind T "::".toList with
  | none => exact absurd h ((rfind_eq_none_iff T _).mp hr)
  | some p =>
    obtain ⟨h1, h2, h3⟩ := rfind_some_split T _ (by decide) p hr
    refine ⟨T.take p, T.drop (p + 2), h1, by simpa using h3, ?_⟩
    intro L2 name2 h4
    rw [h2]
    by_contra hc
    have hlt : p + 1 ≤ L2.length := by omega
    obtain ⟨_, hno⟩ := (rfind_eq_some_iff T _ (by decide) p).mp hr
    apply hno
    have hd : T.drop (p + 1) = (L2.drop (p + 1)) ++ "::".toList ++ name2 := by
      rw [h4, List.append_assoc, List.drop_append_of_le_length hlt, List.append_assoc]
    rw [hd]
    exact ⟨_, _, rfl⟩

theorem parse_filename_partnum_outcome (L n1 n2 : Str) (f1 f2 : Bool) :
    (parse_filename_partnum L n1 f1).map (fun r => (r.file_name, r.part_num)) =
      (parse_filename_partnum L n2 f2).map (fun r => (r.file_name, r.part_num)) := by
  unfold parse_filename_partnum
  cases rfind L ":".toList with
  | none => rfl
  | some p =>
    simp only
    split <;> rfl

theorem parse_filename_partnum_ok (L n : Str) (f : Bool) (r : ParsedName)
    (h : parse_filename_partnum L n f = .ok r) : r.part_name = n ∧ r.force_part_name = f := by
  unfold parse_filename_partnum at h
  cases hr : rfind L ":".toList with
  | none =>
    rw [hr] at h
    cases h; exact ⟨rfl, rfl⟩
  | some p =>
    rw [hr] at h
    simp only at h
    split at h
    · cases h; exact ⟨rfl, rfl⟩
    · cases h

/-- C2: a token that contains "::" is split at its last "::" (no split point lies further to
the right): the part name is exactly the text after it, `force_part_name` is true, and the
path and part selector (or the failure) are the same whatever name follows the split, so they
are determined by the text before it alone. -/
theorem parse_filename_forced_name (T : Str) (h : "::".toList <:+: T) :
    ∃ L name, T = L ++ "::".toList ++ name ∧
      (∀ L2 name2, T = L2 ++ "::".toList ++ name2 → L2.length ≤ L.length) ∧
      (∀ r, parse_filename T = .ok r → r.part_name = name ∧ r.force_part_name = true) ∧
      (∀ name2, ¬ "::".toList <:+: ':' :: name2 →
        (parse_filename (L ++ "::".toList ++ name2)).map (fun r => (r.file_name, r.part_num)) =
          (parse_filename T).map (fun r => (r.file_name, r.part_num))) := by
  obtain ⟨L, name, h1, h2, h3⟩ := last_double_colon T h
  refine ⟨L, name, h1, h3, ?_, ?_⟩
  · intro r hr
    rw [h1, parse_filename_split L name h2] at hr
    exact parse_filename_partnum_ok L name true r hr
  · intro name2 hn
    rw [h1, parse_filename_split L name h2, parse_filename_split L name2 hn]
    exact parse_filename_partnum_outcome L name2 name true true

/-- C2, at the token of the specification: "a/b/frame.0007.exr:3::custom" gives the path
"a/b/frame.0007.exr", part 3, name "custom" and a forced name. -/
theorem parse_filename_forced_name_witness :
    parse_filename "a/b/frame.0007.exr:3::custom".toList =
        .ok ⟨"a/b/frame.0007.exr".toList, "custom".toList, true, 3⟩ ∧
      ∃ L name, "a/b/frame.0007.exr:3::custom".toList = L ++ "::".toList ++ name ∧
        (∀ L2 name2, "a/b/frame.0007.exr:3::custom".toList = L2 ++ "::".toList ++ name2 →
          L2.length ≤ L.length) ∧
        (∀ r, parse_filename "a/b/frame.0007.exr:3::custom".toList = .ok r →
          r.part_name = name ∧ r.force_part_name = true) ∧
        (∀ name2, ¬ "::".toList <:+: ':' :: name2 →
          (parse_filename (L ++ "::".toList ++ name2)).map (fun r => (r.file_name, r.part_num)) =
            (parse_filename "a/b/frame.0007.exr:3::custom".toList).map
              (fun r => (r.file_name, r.part_num))) :=
  ⟨by decide, parse_filename_forced_name "a/b/frame.0007.exr:3::custom".toList (by decide)⟩

theorem name_stripped_parse (T L : Str) (hL : NameStripped T L) :
    ∃ n f, parse_filename T = parse_filename_partnum L n f := by
  rcases hL with ⟨h1, rfl⟩ | ⟨name, h1, h2⟩
  · exact ⟨_, _, parse_filename_no_split L h1⟩
  · exact ⟨_, _, by rw [h1]; exact parse_filename_split L name h2⟩

/-- C3, as the code has it: with `L` the token without its "::name" suffix, `parse_filename`
fails, and then with "part number must be a number", exactly when `L` contains ':' and the text
after the last ':' is not a non-empty digit string.  When `L` has no ':' the selector is `-1`
and the path is `L`.  Otherwise the path is `L` without that ':' and the digits, and the
selector is the integer the digits denote whenever that integer is below `2 ^ 31`; it is then
non-negative and not the sentinel. -/
theorem parse_filename_selector (T L : Str) (hL : NameStripped T L) :
    ((∃ e, parse_filename T = .error e) ↔
        ∃ a b, L = a ++ ':' :: b ∧ ':' ∉ b ∧ ¬ IsDigitString b) ∧
      (∀ e, parse_filename T = .error e → e = .partNumberMustBeNumber) ∧
      (':' ∉ L → ∃ r, parse_filename T = .ok r ∧ r.part_num = -1 ∧ r.file_name = L) ∧
      (∀ a b, L = a ++ ':' :: b → ':' ∉ b → IsDigitString b →
        ∃ r, parse_filename T = .ok r ∧ r.file_name = a ∧
          (decimal_value b < 2 ^ 31 →
            r.part_num = decimal_value b ∧ 0 ≤ r.part_num ∧ r.part_num ≠ -1)) := by
  obtain ⟨n, f, hp⟩ := name_stripped_parse T L hL
  rw [hp]
  have key : ∀ a b, L = a ++ ':' :: b → ':' ∉ b →
      parse_filename_partnum L n f =
        if is_number b then .ok ⟨a, n, f, atoi b⟩ else .error .partNumberMustBeNumber := by
    intro a b h1 h2
    rw [h1]; exact parse_filename_partnum_colon a b n f h2
  refine ⟨⟨?_, ?_⟩, ?_, ?_, ?_⟩
  · rintro ⟨e, he⟩
    by_cases hc : ':' ∈ L
    · obtain ⟨a, b, h1, h2⟩ := last_split_of_mem L ':' hc
      refine ⟨a, b, h1, h2, ?_⟩
      intro hd
      rw [key a b h1 h2, if_pos ((is_number_iff b).mpr hd)] at he
      cases he
    · rw [parse_filename_partnum_no_colon L n f hc] at he
      cases he
  · rintro ⟨a, b, h1, h2, h3⟩
    refine ⟨.partNumberMustBeNumber, ?_⟩
    rw [key a b h1 h2, if_neg (fun h => h3 ((is_number_iff b).mp h))]
  · intro e he
    by_cases hc : ':' ∈ L
    · obtain ⟨a, b, h1, h2⟩ := last_split_of_mem L ':' hc
      rw [key a b h1 h2] at he
      split at he
      · cases he
      · cases he; rfl
    · rw [parse_filename_partnum_no_colon L n f hc] at he
      cases he
  · intro hc
    exact ⟨_, parse_filename_partnum_no_colon L n f hc, rfl, rfl⟩
  · intro a b h1 h2 h3
    refine ⟨⟨a, n, f, atoi b⟩, ?_, rfl, ?_⟩
    · rw [key a b h1 h2, if_pos ((is_number_iff b).mpr h3)]
    · intro hlt
      have : atoi b = decimal_value b := by
        rw [atoi_of_digits b h3, strtol_clamp_of_lt _ hlt, to_int_of_lt _ hlt]
      simp only [this]
      refine ⟨trivial, by omega, by omega⟩

/-- C3, at the token of the specification: "a/b/frame.0007.exr:3::custom". -/
theorem parse_filename_selector_witness :
    NameStripped "a/b/frame.0007.exr:3::custom".toList "a/b/frame.0007.exr:3".toList ∧
      (((∃ e, parse_filename "a/b/frame.0007.exr:3::custom".toList = .error e) ↔
        ∃ a b, "a/b/frame.0007.exr:3".toList = a ++ ':' :: b ∧ ':' ∉ b ∧ ¬ IsDigitString b) ∧
      (∀ e, parse_filename "a/b/frame.0007.exr:3::custom".toList = .error e →
        e = .partNumberMustBeNumber) ∧
      (':' ∉ "a/b/frame.0007.exr:3".toList →
        ∃ r, parse_filename "a/b/frame.0007.exr:3::custom".toList = .ok r ∧ r.part_num = -1 ∧
          r.file_name = "a/b/frame.0007.exr:3".toList) ∧
      (∀ a b, "a/b/frame.0007.exr:3".toList = a ++ ':' :: b → ':' ∉ b → IsDigitString b →
        ∃ r, parse_filename "a/b/frame.0007.exr:3::custom".toList = .ok r ∧ r.file_name = a ∧
          (decimal_value b < 2 ^ 31 →
            r.part_num = decimal_value b ∧ 0 ≤ r.part_num ∧ r.part_num ≠ -1))) :=
  ⟨Or.inr ⟨"custom".toList, by decide, by decide⟩,
    parse_filename_selector _ _ (Or.inr ⟨"custom".toList, by decide, by decide⟩)⟩

/-- C3 does not hold as stated: the token "f.exr:4294967295" has no "::", its text after the
last ':' is a non-empty digit string denoting 4294967295, the parse succeeds, and the selector
is `-1`, the sentinel for all parts, not the integer the digits denote. -/
theorem parse_filename_selector_counterexample :
    ¬ "::".toList <:+: "f.exr:4294967295".toList ∧
      "f.exr:4294967295".toList = "f.exr".toList ++ ':' :: "4294967295".toList ∧
      ':' ∉ "4294967295".toList ∧ IsDigitString "4294967295".toList ∧
      decimal_value "4294967295".toList = 4294967295 ∧
      parse_filename "f.exr:4294967295".toList =
        .ok ⟨"f.exr".toList, "f".toList, false, -1⟩ ∧
      ((-1 : Int) ≠ ((4294967295 : Nat) : Int)) := by
  refine ⟨by decide, by decide, by decide, by decide, by decide, by decide, by decide⟩

theorem takeWhile_append_stop (p : Char → Bool) (l r : Str) (c : Char)
    (hl : ∀ x ∈ l, p x = true) (hc : p c = false) : List.takeWhile p (l ++ c :: r) = l := by
  induction l with
  | nil => simp [List.takeWhile, hc]
  | cons x t ih =>
    have hx : p x = true := hl x (List.mem_cons_self _ _)
    simp only [List.cons_append, List.takeWhile_cons, hx, if_true]
    rw [ih (fun y hy => hl y (List.mem_cons_of_mem _ hy))]

theorem takeWhile_all (p : Char → Bool) (l : Str) (hl : ∀ x ∈ l, p x = true) :
    List.takeWhile p l = l := by
  induction l with
  | nil => rfl
  | cons x t ih =>
    have hx : p x = true := hl x (List.mem_cons_self _ _)
    simp only [List.takeWhile_cons, hx, if_true]
    rw [ih (fun y hy => hl y (List.mem_cons_of_mem _ hy))]

theorem after_last_split (a b : Str) (c : Char) (hb : c ∉ b) :
    ((a ++ c :: b).reverse.takeWhile (· ≠ c)).reverse = b := by
  have h1 : (a ++ c :: b).reverse = b.reverse ++ c :: a.reverse := by simp
  rw [h1, takeWhile_append_stop _ _ _ _ (fun x hx => by
    have : x ≠ c := fun e => hb (by rw [← e]; exact List.mem_reverse.mp hx)
    simpa using this) (by simp)]
  simp

theorem after_last_none (s : Str) (c : Char) (hs : c ∉ s) :
    (s.reverse.takeWhile (· ≠ c)).reverse = s := by
  rw [takeWhile_all _ _ (fun x hx => by
    have : x ≠ c := fun e => hs (by rw [← e]; exact List.mem_reverse.mp hx)
    simpa using this)]
  simp

theorem final_segment_split (a b : Str) (hb : '/' ∉ b) : final_segment (a ++ '/' :: b) = b :=
  after_last_split a b '/' hb

theorem final_segment_none (s : Str) (hs : '/' ∉ s) : final_segment s = s :=
  after_last_none s '/' hs

theorem strip_directory_eq (T : Str) :
    (match rfind T IMF_PATH_SEPARATOR with
      | some posSlash => substrFrom T (posSlash + 1)
      | none => T) = final_segment T := by
  cases hr : rfind T IMF_PATH_SEPARATOR with
  | none =>
    have := (rfind_char_none T '/').mp hr
    simp only [final_segment_none T this]
  | some p =>
    obtain ⟨h1, _, h3⟩ := rfind_char_some T '/' p hr
    simp only [substrFrom]
    conv_rhs => rw [h1]
    rw [final_segment_split _ _ h3]

theorem strip_frame_split (a b : Str) (hb : '.' ∉ b) :
    strip_frame (a ++ '.' :: b) = if IsDigitString b then a else a ++ '.' :: b := by
  unfold strip_frame
  simp only [after_last_split a b '.' hb]
  by_cases hd : IsDigitString b
  · simp [hd]
  · simp [hd]

theorem strip_frame_none (s : Str) (hs : '.' ∉ s) : strip_frame s = s := by
  unfold strip_frame
  simp [hs]

theorem strip_frame_code (stem : Str) (n : Nat) (hn : stem.length ≤ n) :
    (match rfind stem ".".toList with
      | some pos2 =>
        if is_number (substr stem (pos2 + 1) n) then substr stem 0 pos2 else stem
      | none => stem) = strip_frame stem := by
  cases hr : rfind stem ".".toList with
  | none =>
    have := (rfind_char_none stem '.').mp hr
    simp only [strip_frame_none stem this]
  | some p =>
    obtain ⟨h1, h2, h3⟩ := rfind_char_some stem '.' p hr
    have hlen : (stem.drop (p + 1)).length ≤ n := by
      simp only [List.length_drop]; omega
    have hsub : substr stem (p + 1) n = stem.drop (p + 1) := by
      unfold substr; exact List.take_of_length_le hlen
    have hsub2 : substr stem 0 p = stem.take p := by simp [substr]
    simp only [hsub, hsub2]
    conv_rhs => rw [h1, strip_frame_split _ _ h3]
    by_cases hd : IsDigitString (stem.drop (p + 1))
    · rw [if_pos ((is_number_iff _).mpr hd), if_pos hd]
    · rw [if_neg (fun h => hd ((is_number_iff _).mp h)), if_neg hd]
      exact h1

theorem parse_partname_cut (T stem post : Str)
    (hseg : final_segment T = stem ++ ".exr".toList ++ post)
    (hlast : ¬ ".exr".toList <:+: (".exr".toList ++ post).drop 1) :
    parse_partname T = strip_frame stem := by
  unfold parse_partname
  simp only [strip_directory_eq T, hseg]
  rw [rfind_append stem ".exr".toList post (by decide) hlast]
  simp only
  have hs : substr (stem ++ ".exr".toList ++ post) 0 stem.length = stem := by
    simp [substr, List.append_assoc]
  rw [hs]
  exact strip_frame_code stem stem.length (le_refl _)

theorem parse_partname_keep (T : Str) (h : ¬ ".exr".toList <:+: final_segment T) :
    parse_partname T = final_segment T := by
  unfold parse_partname
  simp only [strip_directory_eq T]
  rw [(rfind_eq_none_iff _ _).mpr h]

theorem digit_string_no (b : Str) (c : Char) (hb : IsDigitString b)
    (hc : c ∉ "0123456789".toList) : c ∉ b := fun h => hc (hb.2 c h)

theorem spec_part_name_of_suffix (path stem : Str)
    (h : final_segment path = stem ++ ".exr".toList) : spec_part_name path = strip_frame stem := by
  unfold spec_part_name
  simp only [h]
  rw [if_pos (List.suffix_append _ _)]
  simp

/-- C4, as the code has it: a token without "::" that parses has `force_part_name` false.  Its
part name is the one the specification describes (final path segment, trailing ".exr" removed,
then a frame number removed) whenever the final segment of the path ends in ".exr"; it is the
final segment unchanged when the token has no ':' selector and that segment does not contain
".exr". -/
theorem parse_filename_default_name (T : Str) (r : ParsedName)
    (hT : ¬ "::".toList <:+: T) (hr : parse_filename T = .ok r) :
    r.force_part_name = false ∧
      (".exr".toList <:+ final_segment r.file_name →
        r.part_name = spec_part_name r.file_name) ∧
      (':' ∉ T → ¬ ".exr".toList <:+: final_segment r.file_name →
        r.part_name = final_segment r.file_name ∧
          r.part_name = spec_part_name r.file_name) := by
  rw [parse_filename_no_split T hT] at hr
  obtain ⟨hname, hforce⟩ := parse_filename_partnum_ok _ _ _ r hr
  have key : (".exr".toList <:+ final_segment r.file_name ∨
      (':' ∉ T ∧ ¬ ".exr".toList <:+: final_segment r.file_name)) →
      r.part_name = spec_part_name r.file_name := by
    intro hcase
    rw [hname]
    by_cases hc : ':' ∈ T
    · obtain ⟨a, b, h1, h2⟩ := last_split_of_mem T ':' hc
      have hr2 := hr
      rw [h1, parse_filename_partnum_colon a b _ _ h2] at hr2
      by_cases hd : is_number b = true
      · rw [if_pos hd] at hr2
        have hfile : r.file_name = a := by cases hr2; rfl
        have hdig := (is_number_iff b).mp hd
        have hslash : '/' ∉ b := digit_string_no b '/' hdig (by decide)
        have hdot : '.' ∉ b := digit_string_no b '.' hdig (by decide)
        rw [hfile] at hcase ⊢
        rcases hcase with hsuf | ⟨hno, _⟩
        · obtain ⟨stem, hstem⟩ := hsuf
          have hsegT : final_segment T = stem ++ ".exr".toList ++ (':' :: b) := by
            rw [h1]
            by_cases hs : '/' ∈ a
            · obtain ⟨a1, a2, ha, ha2⟩ := last_split_of_mem a '/' hs
              have : a ++ ':' :: b = a1 ++ '/' :: (a2 ++ ':' :: b) := by rw [ha]; simp
              rw [this, final_segment_split _ _ (by simp [ha2, hslash])]
              rw [ha, final_segment_split _ _ ha2] at hstem
              rw [← hstem]
            · rw [final_segment_none _ (by simp [hs, hslash])]
              rw [final_segment_none _ hs] at hstem
              rw [← hstem]
          rw [parse_partname_cut T stem (':' :: b) hsegT (by
            intro hin
            have : '.' ∈ (".exr".toList ++ ':' :: b).drop 1 := hin.subset (by decide)
            simp at this
            exact hdot this)]
          exact (spec_part_name_of_suffix a stem hstem.symm).symm
        · exact absurd hc hno
      · rw [if_neg hd] at hr2
        cases hr2
    · have hfile : r.file_name = T := by
        rw [parse_filename_partnum_no_colon _ _ _ hc] at hr
        cases hr; rfl
      rw [hfile] at hcase ⊢
      rcases hcase with hsuf | ⟨_, hno⟩
      · obtain ⟨stem, hstem⟩ := hsuf
        rw [parse_partname_cut T stem [] (by simpa using hstem.symm) (by decide)]
        exact (spec_part_name_of_suffix T stem hstem.symm).symm
      · rw [parse_partname_keep T hno]
        unfold spec_part_name
        simp only
        rw [if_neg (fun h => hno h.isInfix)]
  refine ⟨hforce, fun h => key (Or.inl h), fun h1 h2 => ⟨?_, key (Or.inr ⟨h1, h2⟩)⟩⟩
  rw [key (Or.inr ⟨h1, h2⟩)]
  unfold spec_part_name
  simp only
  rw [if_neg (fun h => h2 h.isInfix)]

/-- C4, at the tokens of the specification: "a/b/frame.0007.exr" gives the name "frame" and
"img.exr" the name "img"; for "plain", without selector and without ".exr", the name is the
segment unchanged. -/
theorem parse_filename_default_name_witness :
    parse_filename "a/b/frame.0007.exr".toList =
        .ok ⟨"a/b/frame.0007.exr".toList, "frame".toList, false, -1⟩ ∧
      parse_filename "img.exr".toList = .ok ⟨"img.exr".toList, "img".toList, false, -1⟩ ∧
      spec_part_name "a/b/frame.0007.exr".toList = "frame".toList ∧
      (⟨"a/b/frame.0007.exr".toList, "frame".toList, false, -1⟩ : ParsedName).force_part_name
          = false ∧
      (⟨"a/b/frame.0007.exr".toList, "frame".toList, false, -1⟩ : ParsedName).part_name =
          spec_part_name
            (⟨"a/b/frame.0007.exr".toList, "frame".toList, false, -1⟩ : ParsedName).file_name ∧
      ((⟨"plain".toList, "plain".toList, false, -1⟩ : ParsedName).part_name =
          final_segment (⟨"plain".toList, "plain".toList, false, -1⟩ : ParsedName).file_name ∧
        (⟨"plain".toList, "plain".toList, false, -1⟩ : ParsedName).part_name =
          spec_part_name (⟨"plain".toList, "plain".toList, false, -1⟩ : ParsedName).file_name) :=
  ⟨by decide, by decide, by decide,
    (parse_filename_default_name "a/b/frame.0007.exr".toList
      ⟨"a/b/frame.0007.exr".toList, "frame".toList, false, -1⟩ (by decide) (by decide)).1,
    (parse_filename_default_name "a/b/frame.0007.exr".toList
      ⟨"a/b/frame.0007.exr".toList, "frame".toList, false, -1⟩ (by decide) (by decide)).2.1
      (by decide),
    (parse_filename_default_name "plain".toList
      ⟨"plain".toList, "plain".toList, false, -1⟩ (by decide) (by decide)).2.2
      (by decide) (by decide)⟩

/-- C4 does not hold as stated: the token "foo:3" has no "::" and parses; its path is "foo",
whose final segment does not end in ".exr", so the claim gives the part name "foo"; the code
gives "foo:3".  The token "foo.exr.bak" has a final segment that does not end in ".exr", and the
code gives "foo" and not the segment unchanged. -/
theorem parse_filename_default_name_counterexample :
    parse_filename "foo:3".toList = .ok ⟨"foo".toList, "foo:3".toList, false, 3⟩ ∧
      spec_part_name "foo".toList = "foo".toList ∧
      parse_filename "foo.exr.bak".toList =
        .ok ⟨"foo.exr.bak".toList, "foo".toList, false, -1⟩ ∧
      spec_part_name "foo.exr.bak".toList = "foo.exr.bak".toList ∧
      ¬ (∀ (T : Str) (r : ParsedName), ¬ "::".toList <:+: T → parse_filename T = .ok r →
          r.force_part_name = false ∧ r.part_name = spec_part_name r.file_name) := by
  refine ⟨by decide, by decide, by decide, by decide, ?_⟩
  intro h
  have := (h "foo:3".toList ⟨"foo".toList, "foo:3".toList, false, 3⟩ (by decide) (by decide)).2
  revert this
  decide

/-! ## Lemmas on `make_unique_names` -/

theorem filter_length_lt (l : List Str) (p q : Str → Bool) (x0 : Str)
    (hpq : ∀ x, p x = true → q x = true) (hx : x0 ∈ l) (hq : q x0 = true) (hp : p x0 = false) :
    (l.filter p).length < (l.filter q).length := by
  induction l with
  | nil => cases hx
  | cons a t ih =>
    have hle : (t.filter p).length ≤ (t.filter q).length := by
      clear ih hx
      induction t with
      | nil => simp
      | cons b u ihu =>
        by_cases hb : p b = true
        · simp [List.filter_cons, hb, hpq b hb, ihu]
        · by_cases hb2 : q b = true
          · simp [List.filter_cons, hb, hb2]; omega
          · simp [List.filter_cons, hb, hb2, ihu]
    rcases List.mem_cons.mp hx with rfl | hmem
    · simp [List.filter_cons, hq, hp]; omega
    · have := ih hmem
      by_cases ha : p a = true
      · simp [List.filter_cons, ha, hpq a ha]; omega
      · by_cases ha2 : q a = true
        · simp [List.filter_cons, ha, ha2]; omega
        · simp [List.filter_cons, ha, ha2]; omega

/-- The candidate search ends: with more fuel than there are committed names longer than the
stream content, the loop returns a name that is not committed. -/
theorem unique_name_loop_some (names : List Str) (hname : Str) (i : Nat) (fuel : Nat) (s : Str)
    (backup : Nat)
    (hfuel : (names.filter (fun n => decide (s.length < n.length))).length < fuel) :
    ∃ r, unique_name_loop names hname i fuel s backup = some r ∧ r ∉ names := by
  induction fuel generalizing s backup with
  | zero => omega
  | succ fuel ih =>
    unfold unique_name_loop
    simp only
    split
    · rename_i hin
      apply ih
      have hlt := filter_length_lt names
        (fun n => decide ((s ++ (hname ++ "_".toList ++ Nat.toDigits 10 i ++ "_".toList ++
          Nat.toDigits 10 backup)).length < n.length))
        (fun n => decide (s.length < n.length)) _
        (by
          intro x hx
          simp only [decide_eq_true_eq, List.length_append] at hx ⊢
          omega)
        hin
        (by
          simp only [decide_eq_true_eq, List.length_append, String.toList, List.length_cons,
            List.length_nil]
          omega)
        (by simp)
      omega
    · rename_i hin
      exact ⟨_, rfl, hin⟩

theorem unique_name_loop_enough (names : List Str) (hname : Str) (i : Nat) :
    ∃ r, unique_name_loop names hname i (names.length + 1) [] 1 = some r ∧ r ∉ names := by
  apply unique_name_loop_some
  have := List.length_filter_le (fun n : Str => decide (([] : Str).length < n.length)) names
  omega

theorem make_unique_names_from_ok (names : List Str) (i : Nat) (hs : List Header)
    (hnamed : ∀ h ∈ hs, h.hasName = true) :
    ∃ out, make_unique_names_from names i hs = .ok out ∧ out.length = hs.length ∧
      (out.map (·.name)).Nodup ∧ ∀ o ∈ out, ∃ n, o.name = some n ∧ n ∉ names := by
  induction hs generalizing names i with
  | nil => exact ⟨[], rfl, rfl, by simp, by simp⟩
  | cons h rest ih =>
    have hh : h.hasName = true := hnamed h (List.mem_cons_self _ _)
    have hrest : ∀ x ∈ rest, x.hasName = true := fun x hx => hnamed x (List.mem_cons_of_mem _ hx)
    unfold make_unique_names_from
    cases hn : h.name with
    | none => simp [Header.hasName, hn] at hh
    | some base =>
      simp only
      by_cases hb : base ∈ names
      · rw [if_pos hb]
        obtain ⟨s, hs1, hs2⟩ := unique_name_loop_enough names base i
        rw [hs1]
        obtain ⟨out, ho1, ho2, ho3, ho4⟩ := ih (names.insert s) (i + 1) hrest
        simp only [ho1]
        refine ⟨_, rfl, by simp [ho2], ?_, ?_⟩
        · simp only [List.map_cons, List.nodup_cons]
          refine ⟨?_, ho3⟩
          intro hmem
          obtain ⟨o, ho, heq⟩ := List.mem_map.mp hmem
          obtain ⟨n, hn1, hn2⟩ := ho4 o ho
          simp only [Header.setName] at heq
          rw [hn1] at heq
          cases heq
          exact hn2 (by simp)
        · intro o ho
          rcases List.mem_cons.mp ho with rfl | ho
          · exact ⟨s, rfl, hs2⟩
          · obtain ⟨n, hn1, hn2⟩ := ho4 o ho
            exact ⟨n, hn1, fun hc => hn2 (by simp [hc])⟩
      · rw [if_neg hb]
        obtain ⟨out, ho1, ho2, ho3, ho4⟩ := ih (names.insert base) (i + 1) hrest
        simp only [ho1]
        refine ⟨_, rfl, by simp [ho2], ?_, ?_⟩
        · simp only [List.map_cons, List.nodup_cons]
          refine ⟨?_, ho3⟩
          intro hmem
          obtain ⟨o, ho, heq⟩ := List.mem_map.mp hmem
          obtain ⟨n, hn1, hn2⟩ := ho4 o ho
          rw [hn1, hn] at heq
          cases heq
          exact hn2 (by simp)
        · intro o ho
          rcases List.mem_cons.mp ho with rfl | ho
          · exact ⟨base, hn, hb⟩
          · obtain ⟨n, hn1, hn2⟩ := ho4 o ho
            exact ⟨n, hn1, fun hc => hn2 (by simp [hc])⟩

theorem make_unique_names_from_named (names : List Str) (i : Nat) (hs out : List Header)
    (h : make_unique_names_from names i hs = .ok out) : ∀ x ∈ hs, x.hasName = true := by
  induction hs generalizing names i out with
  | nil => simp
  | cons h0 rest ih =>
    unfold make_unique_names_from at h
    cases hn : h0.name with
    | none => rw [hn] at h; cases h
    | some base =>
      rw [hn] at h
      simp only at h
      have h0named : h0.hasName = true := by simp [Header.hasName, hn]
      split at h
      · split at h
        · cases h
        · split at h
          · rename_i out2 hout
            intro x hx
            rcases List.mem_cons.mp hx with rfl | hx
            · exact h0named
            · exact ih _ _ _ hout x hx
          · cases h
      · split at h
        · rename_i out2 hout
          intro x hx
          rcases List.mem_cons.mp hx with rfl | hx
          · exact h0named
          · exact ih _ _ _ hout x hx
        · cases h

theorem make_unique_names_from_step (names : List Str) (i : Nat) (h0 : Header)
    (rest out : List Header) (h : make_unique_names_from names i (h0 :: rest) = .ok out) :
    ∃ o0 out2 n0, out = o0 :: out2 ∧ o0 = h0.setName n0 ∧ n0 ∉ names ∧
      (∀ b, h0.name = some b → b ∉ names → o0 = h0) ∧
      make_unique_names_from (names.insert n0) (i + 1) rest = .ok out2 := by
  unfold make_unique_names_from at h
  cases hn : h0.name with
  | none => rw [hn] at h; cases h
  | some base =>
    rw [hn] at h
    simp only at h
    split at h
    · rename_i hb
      split at h
      · cases h
      · rename_i s hs
        obtain ⟨r, hr1, hr2⟩ := unique_name_loop_enough names base i
        rw [hs] at hr1
        cases hr1
        split at h
        · rename_i out2 hout
          cases h
          exact ⟨_, out2, s, rfl, rfl, hr2, fun b hb1 hb2 => by cases hb1; exact absurd hb hb2, hout⟩
        · cases h
    · rename_i hb
      split at h
      · rename_i out2 hout
        cases h
        have heq : h0 = h0.setName base := by
          cases h0
          simp only [Header.setName]
          simp only at hn
          rw [hn]
        exact ⟨h0, out2, base, rfl, heq, hb, fun _ _ _ => rfl, hout⟩
      · cases h

theorem make_unique_names_from_keep (names : List Str) (i : Nat) (hs out : List Header)
    (h : make_unique_names_from names i hs = .ok out) (k : Nat) (x : Header)
    (hk : hs[k]? = some x) (hx : ∀ n, x.name = some n → n ∉ names)
    (hearlier : ∀ j, j < k → ∀ o, out[j]? = some o → o.name ≠ x.name) :
    out[k]? = some x := by
  induction hs generalizing names i out k with
  | nil => simp at hk
  | cons h0 rest ih =>
    obtain ⟨o0, out2, n0, rfl, ho0, hn0, hkeep, hout⟩ :=
      make_unique_names_from_step names i h0 rest out h
    have hnamed := make_unique_names_from_named _ _ _ _ h
    cases k with
    | zero =>
      simp only [List.getElem?_cons_zero, Option.some.injEq] at hk ⊢
      subst hk
      have : h0.hasName = true := hnamed h0 (List.mem_cons_self _ _)
      cases hb : h0.name with
      | none => simp [Header.hasName, hb] at this
      | some b => exact hkeep b hb (hx b hb)
    | succ k =>
      simp only [List.getElem?_cons_succ] at hk ⊢
      apply ih (names.insert n0) (i + 1) out2 hout k hk
      · intro n hn hmem
        rcases List.mem_insert_iff.mp hmem with rfl | hmem
        · have := hearlier 0 (Nat.succ_pos k) o0 (by simp)
          rw [ho0, hn] at this
          simp [Header.setName] at this
        · exact hx n hn hmem
      · intro j hj o hoj
        exact hearlier (j + 1) (by omega) o (by simpa using hoj)

theorem make_unique_names_from_fixed (names : List Str) (i : Nat) (hs : List Header)
    (hnamed : ∀ h ∈ hs, h.hasName = true) (hnodup : (hs.map (·.name)).Nodup)
    (hfresh : ∀ h ∈ hs, ∀ n, h.name = some n → n ∉ names) :
    make_unique_names_from names i hs = .ok hs := by
  induction hs generalizing names i with
  | nil => rfl
  | cons h0 rest ih =>
    have h0named : h0.hasName = true := hnamed h0 (List.mem_cons_self _ _)
    simp only [List.map_cons, List.nodup_cons] at hnodup
    unfold make_unique_names_from
    cases hn : h0.name with
    | none => simp [Header.hasName, hn] at h0named
    | some base =>
      simp only
      rw [if_neg (hfresh h0 (List.mem_cons_self _ _) base hn)]
      rw [ih (names.insert base) (i + 1) (fun x hx => hnamed x (List.mem_cons_of_mem _ hx))
        hnodup.2 (by
          intro x hx n hxn hmem
          rcases List.mem_insert_iff.mp hmem with rfl | hmem
          · apply hnodup.1
            rw [hn, ← hxn]
            exact List.mem_map_of_mem _ hx
          · exact hfresh x (List.mem_cons_of_mem _ hx) n hxn hmem)]

/-! ## Theorems on `make_unique_names` -/

/-- C1: for headers that all have a name, `make_unique_names` returns (it does not exit and the
candidate search ends), keeps the number of headers, and the names of the result are pairwise
distinct: no two positions `i ≠ j` carry the same name.  The result is the value of a function
of the input sequence: any result of the call is this one. -/
theorem make_unique_names_distinct (headers : List Header)
    (hnamed : ∀ h ∈ headers, h.hasName = true) :
    ∃ out, make_unique_names headers = .ok out ∧ out.length = headers.length ∧
      (∀ o ∈ out, o.hasName = true) ∧
      (∀ (i j : Nat) (x y : Header), out[i]? = some x → out[j]? = some y → i ≠ j → x.name ≠ y.name) ∧
      (∀ out2, make_unique_names headers = .ok out2 → out2 = out) := by
  obtain ⟨out, h1, h2, h3, h4⟩ := make_unique_names_from_ok [] 0 headers hnamed
  refine ⟨out, h1, h2, ?_, ?_, ?_⟩
  · intro o ho
    obtain ⟨n, hn, _⟩ := h4 o ho
    simp [Header.hasName, hn]
  · intro i j x y hx hy hij hxy
    have hi : i < (out.map (·.name)).length := by
      simp only [List.length_map]
      exact (List.getElem?_eq_some_iff.mp hx).1
    have hj : j < (out.map (·.name)).length := by
      simp only [List.length_map]
      exact (List.getElem?_eq_some_iff.mp hy).1
    have hxi : (out.map (·.name))[i] = x.name := by
      have := List.getElem?_eq_some_iff.mp hx
      simp [this.2]
    have hyj : (out.map (·.name))[j] = y.name := by
      have := List.getElem?_eq_some_iff.mp hy
      simp [this.2]
    exact hij ((List.Nodup.getElem_inj_iff h3).mp (by rw [hxi, hyj, hxy]))
  · intro out2 h5
    unfold make_unique_names at h5
    rw [h1] at h5
    cases h5; rfl

/-- C1, at the sequence of the specification: three headers named "a" become "a", "a_1_1",
"a_2_1". -/
theorem make_unique_names_distinct_witness :
    make_unique_names
        [sample_header "a".toList, sample_header "a".toList, sample_header "a".toList] =
      .ok [sample_header "a".toList, sample_header "a_1_1".toList,
        sample_header "a_2_1".toList] ∧
    ∃ out, make_unique_names
        [sample_header "a".toList, sample_header "a".toList, sample_header "a".toList] =
          .ok out ∧
      out.length =
        [sample_header "a".toList, sample_header "a".toList, sample_header "a".toList].length ∧
      (∀ o ∈ out, o.hasName = true) ∧
      (∀ (i j : Nat) (x y : Header), out[i]? = some x → out[j]? = some y → i ≠ j →
        x.name ≠ y.name) ∧
      (∀ out2, make_unique_names
        [sample_header "a".toList, sample_header "a".toList, sample_header "a".toList] =
          .ok out2 → out2 = out) :=
  ⟨by decide, make_unique_names_distinct _ (by decide)⟩

/-- C7 fails on the code: for the names "a", "x", "a_3_1", "a" the header at index 3 has a
committed name and its first candidate "a_3_1" is committed too.  The smallest attempt whose
candidate is free is 2, so the claim gives "a_3_2"; the stream still holds the first candidate
when the second is written, and the code assigns "a_3_1a_3_2". -/
theorem make_unique_names_second_attempt :
    make_unique_names
        [sample_header "a".toList, sample_header "x".toList, sample_header "a_3_1".toList,
          sample_header "a".toList] =
      .ok [sample_header "a".toList, sample_header "x".toList, sample_header "a_3_1".toList,
        sample_header "a_3_1a_3_2".toList] ∧
    "a".toList ++ "_".toList ++ Nat.toDigits 10 3 ++ "_".toList ++ Nat.toDigits 10 1 ∈
      ["a".toList, "x".toList, "a_3_1".toList] ∧
    "a".toList ++ "_".toList ++ Nat.toDigits 10 3 ++ "_".toList ++ Nat.toDigits 10 2 ∉
      ["a".toList, "x".toList, "a_3_1".toList] ∧
    "a_3_1a_3_2".toList ≠
      "a".toList ++ "_".toList ++ Nat.toDigits 10 3 ++ "_".toList ++ Nat.toDigits 10 2 := by
  refine ⟨by decide, by decide, by decide, by decide⟩

/-- C8, as the code has it: when `make_unique_names` returns, every header whose name differs
from the final names of all earlier headers is unchanged; so the first occurrence of a name is
kept when no earlier header was renamed to that name, the first header is kept, a sequence
whose names are pairwise distinct is returned unchanged, and a second application leaves the
result of the first unchanged. -/
theorem make_unique_names_keeps (headers out : List Header)
    (h : make_unique_names headers = .ok out) :
    (∀ (k : Nat) (x : Header), headers[k]? = some x →
        (∀ j, j < k → ∀ o, out[j]? = some o → o.name ≠ x.name) → out[k]? = some x) ∧
      (∀ (k : Nat) (x : Header), headers[k]? = some x →
        (∀ j, j < k → ∀ y o, headers[j]? = some y → out[j]? = some o →
          y.name ≠ x.name ∧ (o ≠ y → o.name ≠ x.name)) → out[k]? = some x) ∧
      out.head? = headers.head? ∧
      ((headers.map (·.name)).Nodup → out = headers) ∧
      make_unique_names out = .ok out := by
  have hkeep : ∀ (k : Nat) (x : Header), headers[k]? = some x →
      (∀ j, j < k → ∀ o, out[j]? = some o → o.name ≠ x.name) → out[k]? = some x :=
    fun k x hk he => make_unique_names_from_keep [] 0 headers out h k x hk (by simp) he
  have hnamed := make_unique_names_from_named [] 0 headers out h
  obtain ⟨out2, ho1, ho2, ho3, ho4⟩ := make_unique_names_from_ok [] 0 headers hnamed
  have hout : out2 = out := by
    unfold make_unique_names at h
    rw [ho1] at h
    cases h; rfl
  subst hout
  refine ⟨hkeep, ?_, ?_, ?_, ?_⟩
  · intro k x hk hfirst
    apply hkeep k x hk
    intro j hj o ho
    have hjlen : j < headers.length := by
      have := (List.getElem?_eq_some_iff.mp ho).1
      omega
    obtain ⟨h1, h2⟩ := hfirst j hj headers[j] o (List.getElem?_eq_getElem hjlen) ho
    by_cases heq : o = headers[j]
    · rw [heq]; exact h1
    · exact h2 heq
  · cases headers with
    | nil =>
      cases out2 with
      | nil => rfl
      | cons a t => simp at ho2
    | cons x t =>
      have := hkeep 0 x (by simp) (by intro j hj; omega)
      cases out2 with
      | nil => simp at this
      | cons a u =>
        simp only [List.getElem?_cons_zero, Option.some.injEq] at this
        simp [this]
  · intro hnd
    have := make_unique_names_from_fixed [] 0 headers hnamed hnd (by simp)
    rw [ho1] at this
    cases this; rfl
  · exact make_unique_names_from_fixed [] 0 out2
      (fun o ho => by
        obtain ⟨n, hn, _⟩ := ho4 o ho
        simp [Header.hasName, hn])
      ho3 (by simp)

/-- C8, at the sequence of the specification: for three headers named "a" the first is kept
and a second application changes nothing. -/
theorem make_unique_names_keeps_witness :
    make_unique_names
        [sample_header "a".toList, sample_header "a".toList, sample_header "a".toList] =
      .ok [sample_header "a".toList, sample_header "a_1_1".toList,
        sample_header "a_2_1".toList] ∧
    [sample_header "a".toList, sample_header "a_1_1".toList, sample_header "a_2_1".toList].head?
        = [sample_header "a".toList, sample_header "a".toList,
          sample_header "a".toList].head? ∧
    make_unique_names
        [sample_header "a".toList, sample_header "a_1_1".toList, sample_header "a_2_1".toList] =
      .ok [sample_header "a".toList, sample_header "a_1_1".toList,
        sample_header "a_2_1".toList] :=
  ⟨by decide,
    (make_unique_names_keeps
      [sample_header "a".toList, sample_header "a".toList, sample_header "a".toList]
      [sample_header "a".toList, sample_header "a_1_1".toList, sample_header "a_2_1".toList]
      (by decide)).2.2.1,
    (make_unique_names_keeps
      [sample_header "a".toList, sample_header "a".toList, sample_header "a".toList]
      [sample_header "a".toList, sample_header "a_1_1".toList, sample_header "a_2_1".toList]
      (by decide)).2.2.2.2⟩

/-- C8 does not hold as stated: in the sequence "a", "a", "a_1_1" the third header is the
first occurrence of the name "a_1_1" (the two earlier headers are named "a"), and it is not
kept: the second header has been renamed to "a_1_1", so the third becomes "a_1_1_2_1". -/
theorem make_unique_names_keeps_counterexample :
    make_unique_names
        [sample_header "a".toList, sample_header "a".toList, sample_header "a_1_1".toList] =
      .ok [sample_header "a".toList, sample_header "a_1_1".toList,
        sample_header "a_1_1_2_1".toList] ∧
    (sample_header "a".toList).name ≠ (sample_header "a_1_1".toList).name ∧
    sample_header "a_1_1_2_1".toList ≠ sample_header "a_1_1".toList := by
  refine ⟨by decide, by decide, by decide⟩

/-! ## Lemmas on `combine` -/

theorem filename_check_eq (names : List Str) (b : Str) :
    filename_check names b = if b ∈ names then .error .sameFileNames else .ok () := by
  induction names with
  | nil => simp [filename_check]
  | cons n rest ih =>
    unfold filename_check
    by_cases h : b = n
    · simp [h]
    · simp [h, ih]

theorem combine_header_named (h : Header) (n : Str) (f : Bool) (v : Option Str) :
    (combine_header h n f v).hasName = true := by
  unfold combine_header
  cases hn : h.name <;> cases f <;> cases v <;>
    simp [Header.hasName, Header.setName, Header.setView, hn]

theorem combine_input_ok (fs : FileSystem) (v v1 : CombineVars) (inp : Str × Option Str)
    (h : combine_input fs v inp = .ok v1) :
    ∃ r parts, parse_filename inp.1 = .ok r ∧ open_input fs r.file_name = some parts ∧
      v1.fornamecheck = v.fornamecheck ++ [r.file_name] ∧
      ((r.part_num = -1 ∧
          v1.partnums = v.partnums ++ (List.range parts.length).map Int.ofNat ∧
          v1.inputs = v.inputs ++ List.replicate parts.length r.file_name ∧
          v1.headers = v.headers ++ parts.map
            (fun x => combine_header x r.part_name r.force_part_name inp.2)) ∨
        (r.part_num ≠ -1 ∧ ∃ x, input_header parts r.part_num = some x ∧
          v1.partnums = v.partnums ++ [r.part_num] ∧
          v1.inputs = v.inputs ++ [r.file_name] ∧
          v1.headers = v.headers ++
            [combine_header x r.part_name r.force_part_name inp.2])) := by
  unfold combine_input at h
  cases hp : parse_filename inp.1 with
  | error e => rw [hp] at h; cases h
  | ok r =>
    rw [hp] at h
    simp only at h
    cases ho : open_input fs r.file_name with
    | none => rw [ho] at h; simp at h
    | some parts =>
      rw [ho] at h
      simp only at h
      refine ⟨r, parts, rfl, ho, ?_⟩
      by_cases hn : r.part_num = -1
      · rw [if_pos hn] at h
        cases h
        exact ⟨rfl, Or.inl ⟨hn, rfl, rfl, rfl⟩⟩
      · rw [if_neg hn] at h
        split at h
        · cases h
        · cases hx : input_header parts r.part_num with
          | none => rw [hx] at h; cases h
          | some x =>
            rw [hx] at h
            cases h
            exact ⟨rfl, Or.inr ⟨hn, x, rfl, rfl, rfl, rfl⟩⟩

theorem combine_input_served (fs : FileSystem) (v : CombineVars) (inp : Str × Option Str)
    (h : InputServed fs inp) : ∃ v1, combine_input fs v inp = .ok v1 := by
  obtain ⟨r, parts, hp, ho, hr⟩ := h
  unfold combine_input
  rw [hp]
  simp only
  rw [ho]
  simp only
  by_cases hn : r.part_num = -1
  · rw [if_pos hn]; exact ⟨_, rfl⟩
  · rw [if_neg hn]
    obtain ⟨h0, h1⟩ := hr hn
    rw [if_neg (by omega)]
    have : input_header parts r.part_num = parts.get? r.part_num.toNat := by
      unfold input_header
      rw [if_neg (by omega)]
    rw [this]
    have hlt : r.part_num.toNat < parts.length := by omega
    rw [List.get?_eq_get hlt]
    exact ⟨_, rfl⟩

theorem combine_inputs_served (fs : FileSystem) (v : CombineVars)
    (ins : List (Str × Option Str)) (h : ∀ inp ∈ ins, InputServed fs inp) :
    ∃ v1, combine_inputs fs v ins = .ok v1 := by
  induction ins generalizing v with
  | nil => exact ⟨v, rfl⟩
  | cons inp rest ih =>
    obtain ⟨v1, hv1⟩ := combine_input_served fs v inp (h inp (List.mem_cons_self _ _))
    unfold combine_inputs
    rw [hv1]
    exact ih v1 (fun x hx => h x (List.mem_cons_of_mem _ hx))

theorem combine_inputs_fornamecheck (fs : FileSystem) (v v1 : CombineVars)
    (ins : List (Str × Option Str)) (h : combine_inputs fs v ins = .ok v1) :
    (∀ x ∈ v.fornamecheck, x ∈ v1.fornamecheck) ∧
      ∀ inp ∈ ins, ∀ r, parse_filename inp.1 = .ok r → r.file_name ∈ v1.fornamecheck := by
  induction ins generalizing v with
  | nil =>
    cases h
    exact ⟨fun x hx => hx, by simp⟩
  | cons inp rest ih =>
    unfold combine_inputs at h
    cases hc : combine_input fs v inp with
    | error e => rw [hc] at h; cases h
    | ok v2 =>
      rw [hc] at h
      obtain ⟨r, parts, hp, _, hf, _⟩ := combine_input_ok fs v v2 inp hc
      obtain ⟨ih1, ih2⟩ := ih v2 h
      refine ⟨fun x hx => ih1 x (by rw [hf]; simp [hx]), ?_⟩
      intro inp2 hin r2 hr2
      rcases List.mem_cons.mp hin with rfl | hin
      · rw [hp] at hr2
        cases hr2
        exact ih1 _ (by rw [hf]; simp)
      · exact ih2 inp2 hin r2 hr2

theorem combine_inputs_shape (fs : FileSystem) (v v1 : CombineVars)
    (ins : List (Str × Option Str)) (h : combine_inputs fs v ins = .ok v1)
    (hlen : v.inputs.length = v.headers.length ∧ v.partnums.length = v.headers.length)
    (hnamed : ∀ x ∈ v.headers, x.hasName = true) :
    (v1.inputs.length = v1.headers.length ∧ v1.partnums.length = v1.headers.length) ∧
      ∀ x ∈ v1.headers, x.hasName = true := by
  induction ins generalizing v with
  | nil => cases h; exact ⟨hlen, hnamed⟩
  | cons inp rest ih =>
    unfold combine_inputs at h
    cases hc : combine_input fs v inp with
    | error e => rw [hc] at h; cases h
    | ok v2 =>
      rw [hc] at h
      obtain ⟨r, parts, _, _, _, hcase⟩ := combine_input_ok fs v v2 inp hc
      apply ih v2 h
      · rcases hcase with ⟨_, h1, h2, h3⟩ | ⟨_, x, _, h1, h2, h3⟩
        · rw [h1, h2, h3]; simp [hlen.1, hlen.2]
        · rw [h1, h2, h3]; simp [hlen.1, hlen.2]
      · rcases hcase with ⟨_, _, _, h3⟩ | ⟨_, x, _, _, _, h3⟩
        · rw [h3]
          intro y hy
          rcases List.mem_append.mp hy with hy | hy
          · exact hnamed y hy
          · obtain ⟨z, _, rfl⟩ := List.mem_map.mp hy
            exact combine_header_named _ _ _ _
        · rw [h3]
          intro y hy
          rcases List.mem_append.mp hy with hy | hy
          · exact hnamed y hy
          · rw [List.mem_singleton.mp hy]
            exact combine_header_named _ _ _ _

/-- C5: when the path parsed from one of the input specs equals the output path, `combine` ends
with an error and no output-side step is reached: no output container is constructed and no
copy routine is called.  When every input is served (its token parses, its file opens, a part
asked for by number exists), the error is the one of `filename_check`. -/
theorem combine_same_name (accepts : Str → List Header → Bool → Bool) (fs : FileSystem)
    (in_ : List (Str × Option Str)) (outname : Str) (override : Bool)
    (h : ∃ inp ∈ in_, ∃ r, parse_filename inp.1 = .ok r ∧ r.file_name = outname) :
    (combine accepts fs in_ outname override).events = [] ∧
      (∃ e, (combine accepts fs in_ outname override).status = .error e) ∧
      ((∀ inp ∈ in_, InputServed fs inp) →
        (combine accepts fs in_ outname override).status = .error .sameFileNames) := by
  obtain ⟨inp, hin, r, hr, hout⟩ := h
  unfold combine
  simp only
  cases hc : combine_inputs fs ⟨[], [], [], []⟩ in_ with
  | error e =>
    refine ⟨rfl, ⟨e, rfl⟩, ?_⟩
    intro hs
    obtain ⟨v1, hv1⟩ := combine_inputs_served fs ⟨[], [], [], []⟩ in_ hs
    rw [hv1] at hc
    cases hc
  | ok v =>
    have hmem : outname ∈ v.fornamecheck := by
      rw [← hout]
      exact (combine_inputs_fornamecheck fs _ v in_ hc).2 inp hin r hr
    simp [filename_check_eq, hmem]

/-- C5, at a concrete run: combining "a.exr" into "a.exr" ends with the error of
`filename_check` and no output-side event. -/
theorem combine_same_name_witness :
    combine accepts_all sample_files [("a.exr".toList, none)] "a.exr".toList false =
        ⟨[], .error .sameFileNames⟩ ∧
      ((combine accepts_all sample_files [("a.exr".toList, none)] "a.exr".toList false).events
          = [] ∧
        (∃ e, (combine accepts_all sample_files [("a.exr".toList, none)] "a.exr".toList
          false).status = .error e) ∧
        ((∀ inp ∈ [("a.exr".toList, (none : Option Str))], InputServed sample_files inp) →
          (combine accepts_all sample_files [("a.exr".toList, none)] "a.exr".toList
            false).status = .error .sameFileNames)) :=
  ⟨by decide,
    combine_same_name accepts_all sample_files [("a.exr".toList, none)] "a.exr".toList false
      ⟨("a.exr".toList, none), List.mem_singleton_self _,
        ⟨"a.exr".toList, "a".toList, false, -1⟩, by decide, by decide⟩⟩

theorem nodup_names_index (hs : List Header) (h : (hs.map (·.name)).Nodup) (i j : Nat)
    (x y : Header) (hx : hs[i]? = some x) (hy : hs[j]? = some y) (hij : i ≠ j) :
    x.name ≠ y.name := by
  intro hxy
  have hi : i < (hs.map (·.name)).length := by
    simp only [List.length_map]
    exact (List.getElem?_eq_some_iff.mp hx).1
  have hj : j < (hs.map (·.name)).length := by
    simp only [List.length_map]
    exact (List.getElem?_eq_some_iff.mp hy).1
  have hxi : (hs.map (·.name))[i] = x.name := by
    have := List.getElem?_eq_some_iff.mp hx
    simp [this.2]
  have hyj : (hs.map (·.name))[j] = y.name := by
    have := List.getElem?_eq_some_iff.mp hy
    simp [this.2]
  exact hij ((List.Nodup.getElem_inj_iff h).mp (by rw [hxi, hyj, hxy]))

theorem combine_copy_part_eq (input : Str) (n : Int) (outname : Str) (p : Nat) (type : Str) :
    combine_copy_part input n outname p type =
      match matching_routine type with
      | some r => [Event.copy r input n outname p]
      | none => [] := by
  unfold combine_copy_part matching_routine SCANLINEIMAGE TILEDIMAGE DEEPSCANLINE DEEPTILE
  split_ifs <;> rfl

theorem combine_copy_loop_mem (outname : Str) (p0 : Nat) (hs : List Header) (is : List Str)
    (ns : List Int) (e : Event) :
    e ∈ combine_copy_loop outname p0 hs is ns ↔
      ∃ k h i n r, hs[k]? = some h ∧ is[k]? = some i ∧ ns[k]? = some n ∧
        matching_routine h.type = some r ∧ e = Event.copy r i n outname (p0 + k) := by
  induction hs generalizing p0 is ns with
  | nil => simp [combine_copy_loop]
  | cons h0 hs ih =>
    cases is with
    | nil => simp [combine_copy_loop]
    | cons i0 is =>
      cases ns with
      | nil => simp [combine_copy_loop]
      | cons n0 ns =>
        unfold combine_copy_loop
        rw [List.mem_append, ih (p0 + 1) is ns, combine_copy_part_eq]
        constructor
        · rintro (h1 | ⟨k, h, i, n, r, h1, h2, h3, h4, h5⟩)
          · cases hm : matching_routine h0.type with
            | none => rw [hm] at h1; simp at h1
            | some r =>
              rw [hm] at h1
              simp only [List.mem_singleton] at h1
              exact ⟨0, h0, i0, n0, r, by simp, by simp, by simp, hm, by simpa using h1⟩
          · exact ⟨k + 1, h, i, n, r, by simpa using h1, by simpa using h2, by simpa using h3, h4,
              by rw [h5]; congr 1; omega⟩
        · rintro ⟨k, h, i, n, r, h1, h2, h3, h4, h5⟩
          cases k with
          | zero =>
            simp only [List.getElem?_cons_zero, Option.some.injEq] at h1 h2 h3
            subst h1 h2 h3
            left
            rw [h4, h5]
            simp
          | succ k =>
            right
            exact ⟨k, h, i, n, r, by simpa using h1, by simpa using h2, by simpa using h3, h4,
              by rw [h5]; congr 1; omega⟩

theorem combine_construct_mem (accepts : Str → List Header → Bool → Bool) (fs : FileSystem)
    (in_ : List (Str × Option Str)) (outname : Str) (override : Bool) (o : Str)
    (hs : List Header) (ov : Bool)
    (h : Event.construct o hs ov ∈ (combine accepts fs in_ outname override).events) :
    o = outname ∧ ov = override ∧
      ∃ v, combine_inputs fs ⟨[], [], [], []⟩ in_ = .ok v ∧ outname ∉ v.fornamecheck ∧
        (if in_.length > 1 then make_unique_names v.headers else .ok v.headers) = .ok hs ∧
        combine accepts fs in_ outname override =
          if accepts outname hs override = true then
            ⟨[.construct outname hs override, .construct outname hs override]
              ++ combine_copy_loop outname 0 hs v.inputs v.partnums, .ok ()⟩
          else ⟨[.construct outname hs override], .error .libraryException⟩ := by
  unfold combine at h ⊢
  simp only at h ⊢
  cases hc : combine_inputs fs ⟨[], [], [], []⟩ in_ with
  | error e => rw [hc] at h; simp at h
  | ok v =>
    rw [hc] at h
    simp only at h ⊢
    rw [filename_check_eq] at h
    rw [filename_check_eq]
    by_cases hmem : outname ∈ v.fornamecheck
    · rw [if_pos hmem] at h; simp at h
    · rw [if_neg hmem] at h ⊢
      simp only at h ⊢
      cases hm : (if in_.length > 1 then make_unique_names v.headers else .ok v.headers) with
      | error e => rw [hm] at h; simp at h
      | ok headers =>
        rw [hm] at h
        simp only at h ⊢
        by_cases hacc : accepts outname headers override = true
        · simp only [hacc, Bool.not_true, Bool.false_eq_true, if_false] at h ⊢
          have hh : o = outname ∧ hs = headers ∧ ov = override := by
            rcases List.mem_append.mp h with h | h
            · simp only [List.mem_cons, Event.construct.injEq, List.mem_singleton,
                List.not_mem_nil, or_false, or_self] at h
              exact h
            · obtain ⟨k, x, i, n, r, _, _, _, _, h5⟩ := (combine_copy_loop_mem _ _ _ _ _ _).mp h
              cases h5
          obtain ⟨rfl, rfl, rfl⟩ := hh
          exact ⟨rfl, rfl, v, rfl, hmem, hm, by simp [hacc]⟩
        · simp only [Bool.not_eq_true] at hacc
          simp only [hacc, Bool.not_false, if_true] at h ⊢
          simp only [List.mem_singleton, Event.construct.injEq] at h
          obtain ⟨rfl, rfl, rfl⟩ := h
          exact ⟨rfl, rfl, v, rfl, hmem, hm, by simp [hacc]⟩

theorem combine_header_name_keep (x : Header) (n : Str) (view : Option Str)
    (hx : x.hasName = true) : (combine_header x n false view).name = x.name := by
  unfold combine_header
  cases view <;> simp [hx, Header.setView]

theorem combine_single_all (fs : FileSystem) (tok : Str) (view : Option Str) (r : ParsedName)
    (parts : List Header) (v : CombineVars)
    (hv : combine_inputs fs ⟨[], [], [], []⟩ [(tok, view)] = .ok v)
    (hr : parse_filename tok = .ok r) (hall : r.part_num = -1)
    (hopen : open_input fs r.file_name = some parts) :
    v.headers = parts.map (fun x => combine_header x r.part_name r.force_part_name view) := by
  unfold combine_inputs at hv
  cases hc : combine_input fs ⟨[], [], [], []⟩ (tok, view) with
  | error e => rw [hc] at hv; cases hv
  | ok v2 =>
    rw [hc] at hv
    unfold combine_inputs at hv
    cases hv
    obtain ⟨r2, parts2, hp, ho, _, hcase2⟩ := combine_input_ok fs _ _ _ hc
    simp only at hp
    rw [hr] at hp
    cases hp
    rw [hopen] at ho
    cases ho
    rcases hcase2 with ⟨_, _, _, h3⟩ | ⟨hneg, _⟩
    · rw [h3]; simp
    · exact absurd hall hneg

theorem combine_single_numbered (fs : FileSystem) (tok : Str) (view : Option Str)
    (r : ParsedName) (v : CombineVars)
    (hv : combine_inputs fs ⟨[], [], [], []⟩ [(tok, view)] = .ok v)
    (hr : parse_filename tok = .ok r) (hnum : r.part_num ≠ -1) : v.headers.length = 1 := by
  unfold combine_inputs at hv
  cases hc : combine_input fs ⟨[], [], [], []⟩ (tok, view) with
  | error e => rw [hc] at hv; cases hv
  | ok v2 =>
    rw [hc] at hv
    unfold combine_inputs at hv
    cases hv
    obtain ⟨r2, parts2, hp, _, _, hcase2⟩ := combine_input_ok fs _ _ _ hc
    simp only at hp
    rw [hr] at hp
    cases hp
    rcases hcase2 with ⟨hneg, _⟩ | ⟨_, x, _, _, _, h3⟩
    · exact absurd hneg hnum
    · rw [h3]; simp

theorem short_list_index (hs : List Header) (hlen : hs.length ≤ 1) (i j : Nat) (x y : Header)
    (hx : hs[i]? = some x) (hy : hs[j]? = some y) (hij : i ≠ j) : x.name ≠ y.name := by
  have hi := (List.getElem?_eq_some_iff.mp hx).1
  have hj := (List.getElem?_eq_some_iff.mp hy).1
  omega

/-- C6, as the code has it: in a run of `combine`, every header array handed to the output
container has named headers.  Their names are pairwise distinct when there are at least two
input specs, when the single spec selects a part by number, and when the single spec selects
all parts of its file and the names these parts get are pairwise distinct: the file has at most
one part, or the name is not forced and the parts carry pairwise distinct names, or in general
the names after the renaming of `combine` (own name, or the part name of the spec where the
part has no name or the name is forced) are distinct.  With a single spec that selects all
parts the headers handed over are exactly the renamed parts of the file, so nothing else makes
the names distinct. -/
theorem combine_names_distinct (accepts : Str → List Header → Bool → Bool) (fs : FileSystem)
    (in_ : List (Str × Option Str)) (outname : Str) (override : Bool)
    (o : Str) (hs : List Header) (ov : Bool)
    (h : Event.construct o hs ov ∈ (combine accepts fs in_ outname override).events) :
    (∀ x ∈ hs, x.hasName = true) ∧
      ((2 ≤ in_.length ∨
          ∃ tok view r, in_ = [(tok, view)] ∧ parse_filename tok = .ok r ∧
            (r.part_num ≠ -1 ∨
              ∀ parts, open_input fs r.file_name = some parts →
                (parts.length ≤ 1 ∨
                  (r.force_part_name = false ∧ (∀ x ∈ parts, x.hasName = true) ∧
                    (parts.map (·.name)).Nodup) ∨
                  (parts.map (fun x =>
                    (combine_header x r.part_name r.force_part_name view).name)).Nodup))) →
        ∀ (i j : Nat) (x y : Header), hs[i]? = some x → hs[j]? = some y → i ≠ j →
          x.name ≠ y.name) ∧
      (∀ tok view r parts, in_ = [(tok, view)] → parse_filename tok = .ok r →
        r.part_num = -1 → open_input fs r.file_name = some parts →
        hs = parts.map (fun x => combine_header x r.part_name r.force_part_name view)) := by
  obtain ⟨_, _, v, hv, _, hm, _⟩ := combine_construct_mem accepts fs in_ outname override o hs ov h
  obtain ⟨_, hvnamed⟩ := combine_inputs_shape fs _ v in_ hv ⟨rfl, rfl⟩ (by simp)
  have hsingle : ∀ tok view, in_ = [(tok, view)] → hs = v.headers := by
    intro tok view hin
    rw [hin] at hm
    rw [if_neg (by simp)] at hm
    cases hm; rfl
  refine ⟨?_, ?_, ?_⟩
  · by_cases h2 : in_.length > 1
    · rw [if_pos h2] at hm
      have hnamed := make_unique_names_from_named [] 0 v.headers hs hm
      obtain ⟨out, ho1, _, _, ho4⟩ := make_unique_names_from_ok [] 0 v.headers hnamed
      have : out = hs := by
        unfold make_unique_names at hm
        rw [ho1] at hm
        cases hm; rfl
      subst this
      intro x hx
      obtain ⟨n, hn, _⟩ := ho4 x hx
      simp [Header.hasName, hn]
    · rw [if_neg h2] at hm
      cases hm
      exact hvnamed
  · rintro (h2 | ⟨tok, view, r, hin, hr, hsel⟩)
    · rw [if_pos (by omega)] at hm
      have hnamed := make_unique_names_from_named [] 0 v.headers hs hm
      obtain ⟨out, ho1, _, ho3, _⟩ := make_unique_names_from_ok [] 0 v.headers hnamed
      have : out = hs := by
        unfold make_unique_names at hm
        rw [ho1] at hm
        cases hm; rfl
      subst this
      exact fun i j x y hx hy hij => nodup_names_index out ho3 i j x y hx hy hij
    · have hhs := hsingle tok view hin
      subst hin
      by_cases hnum : r.part_num = -1
      · have hparts : ∃ parts, open_input fs r.file_name = some parts := by
          unfold combine_inputs at hv
          cases hc : combine_input fs ⟨[], [], [], []⟩ (tok, view) with
          | error e => rw [hc] at hv; cases hv
          | ok v2 =>
            obtain ⟨r2, parts2, hp, ho, _⟩ := combine_input_ok fs _ _ _ hc
            simp only at hp
            rw [hr] at hp
            cases hp
            exact ⟨parts2, ho⟩
        obtain ⟨parts, hopen⟩ := hparts
        have hmap := combine_single_all fs tok view r parts v hv hr hnum hopen
        rcases hsel with hsel | hsel
        · exact absurd hnum hsel
        · rcases hsel parts hopen with hlen | ⟨hforce, hpn, hnd⟩ | hnd
          · exact short_list_index hs (by rw [hhs, hmap]; simpa using hlen)
          · apply nodup_names_index
            rw [hhs, hmap, List.map_map]
            have : (parts.map ((fun x : Header => x.name) ∘
                fun x => combine_header x r.part_name r.force_part_name view)) =
                parts.map (·.name) := by
              apply List.map_congr_left
              intro x hx
              simp only [Function.comp, hforce]
              exact combine_header_name_keep x _ _ (hpn x hx)
            rw [this]
            exact hnd
          · apply nodup_names_index
            rw [hhs, hmap, List.map_map]
            exact hnd
      · exact short_list_index hs
          (by rw [hhs, combine_single_numbered fs tok view r v hv hr hnum])
  · intro tok view r parts hin hr hall hopen
    rw [hsingle tok view hin]
    subst hin
    exact combine_single_all fs tok view r parts v hv hr hall hopen

/-- C6, at concrete runs: combining "a.exr" and "b.exr", whose parts are both named "p",
hands over the names "p" and "p_1_1"; combining the two-part file "m.exr" alone, without a
forced name, hands over its names "a" and "b". -/
theorem combine_names_distinct_witness :
    combine accepts_distinct sample_files [("a.exr".toList, none), ("b.exr".toList, none)]
        "o.exr".toList false =
      ⟨[.construct "o.exr".toList [sample_header "p".toList, sample_header "p_1_1".toList] false,
        .construct "o.exr".toList [sample_header "p".toList, sample_header "p_1_1".toList] false,
        .copy .copy_scanline "a.exr".toList 0 "o.exr".toList 0,
        .copy .copy_scanline "b.exr".toList 0 "o.exr".toList 1], .ok ()⟩ ∧
      (∀ (i j : Nat) (x y : Header),
        [sample_header "p".toList, sample_header "p_1_1".toList][i]? = some x →
        [sample_header "p".toList, sample_header "p_1_1".toList][j]? = some y → i ≠ j →
        x.name ≠ y.name) ∧
      (∀ (i j : Nat) (x y : Header),
        [sample_header "a".toList, sample_header "b".toList][i]? = some x →
        [sample_header "a".toList, sample_header "b".toList][j]? = some y → i ≠ j →
        x.name ≠ y.name) :=
  ⟨by decide,
    (combine_names_distinct accepts_distinct sample_files
      [("a.exr".toList, none), ("b.exr".toList, none)] "o.exr".toList false
      "o.exr".toList [sample_header "p".toList, sample_header "p_1_1".toList] false
      (by decide)).2.1 (Or.inl (by decide)),
    (combine_names_distinct accepts_distinct sample_files
      [("m.exr".toList, none)] "o.exr".toList false
      "o.exr".toList [sample_header "a".toList, sample_header "b".toList] false
      (by decide)).2.1
      (Or.inr ⟨"m.exr".toList, none, ⟨"m.exr".toList, "m".toList, false, -1⟩, rfl, by decide,
        Or.inr (fun parts hp => Or.inr (Or.inl ⟨rfl, by
          have : parts = [sample_header "a".toList, sample_header "b".toList] := by
            have h2 : open_input sample_files "m.exr".toList =
                some [sample_header "a".toList, sample_header "b".toList] := by decide
            rw [h2] at hp
            exact (Option.some.inj hp).symm
          subst this
          exact ⟨by decide, by decide⟩⟩))⟩)⟩

/-- C6 does not hold as stated: with the single input spec "m.exr::x", which selects both
parts of "m.exr" and forces the name "x", `make_unique_names` is not called and the header
array handed to the output container carries the name "x" twice. -/
theorem combine_names_distinct_counterexample :
    combine accepts_distinct sample_files [("m.exr::x".toList, none)] "o.exr".toList false =
      ⟨[.construct "o.exr".toList [sample_header "x".toList, sample_header "x".toList] false],
        .error .libraryException⟩ ∧
    combine accepts_all sample_files [("m.exr::x".toList, none)] "o.exr".toList false =
      ⟨[.construct "o.exr".toList [sample_header "x".toList, sample_header "x".toList] false,
        .construct "o.exr".toList [sample_header "x".toList, sample_header "x".toList] false,
        .copy .copy_scanline "m.exr".toList 0 "o.exr".toList 0,
        .copy .copy_scanline "m.exr".toList 1 "o.exr".toList 1], .ok ()⟩ ∧
    (sample_header "x".toList).name = (sample_header "x".toList).name := by
  refine ⟨by decide, by decide, rfl⟩

/-! ## Lemmas on `separate` -/

theorem to_int_of_range (n : Int) (h : -(2 ^ 31) ≤ n ∧ n < 2 ^ 31) : to_int n = n := by
  unfold to_int
  omega

theorem box_size_nonempty (dw : Box2i) (hx : dw.min.x ≤ dw.max.x) (hy : dw.min.y ≤ dw.max.y)
    (hW : dw.max.x - dw.min.x + 1 < 2 ^ 31) (hH : dw.max.y - dw.min.y + 1 < 2 ^ 31) :
    dw.size = ⟨dw.max.x - dw.min.x, dw.max.y - dw.min.y⟩ := by
  unfold Box2i.size Box2i.isEmpty
  have h1 : ¬ dw.max.x < dw.min.x := by omega
  have h2 : ¬ dw.max.y < dw.min.y := by omega
  simp only [h1, h2, decide_False, Bool.or_self, Bool.false_eq_true, if_false]
  rw [to_int_of_range _ (by omega), to_int_of_range _ (by omega)]

theorem samplesize_cases (type : PixelType) : samplesize type = 2 ∨ samplesize type = 4 := by
  cases type <;> simp [samplesize]

theorem window_index_bounds (W H a b : Int) (ha : 0 ≤ a ∧ a < W) (hb : 0 ≤ b ∧ b < H) :
    0 ≤ b * W + a ∧ b * W + a + 1 ≤ W * H := by
  have hW : 0 < W := by omega
  constructor
  · have := mul_nonneg hb.1 hW.le
    omega
  · have h1 : b * W ≤ (H - 1) * W := mul_le_mul_of_nonneg_right (by omega) hW.le
    have h2 : (H - 1) * W = W * H - W := by ring
    omega

theorem window_index_apart (W a b a2 b2 : Int) (ha : 0 ≤ a ∧ a < W) (ha2 : 0 ≤ a2 ∧ a2 < W)
    (hne : ¬ (a = a2 ∧ b = b2)) :
    b2 * W + a2 + 1 ≤ b * W + a ∨ b * W + a + 1 ≤ b2 * W + a2 := by
  rcases lt_trichotomy b b2 with hlt | heq | hgt
  · right
    have h1 : (b + 1) * W ≤ b2 * W := mul_le_mul_of_nonneg_right (by omega) (by omega)
    have h2 : (b + 1) * W = b * W + W := by ring
    omega
  · subst heq
    have : a ≠ a2 := fun h => hne ⟨h, rfl⟩
    omega
  · left
    have h1 : (b2 + 1) * W ≤ b * W := mul_le_mul_of_nonneg_right (by omega) (by omega)
    have h2 : (b2 + 1) * W = b2 * W + W := by ring
    omega

theorem slice_offset_arith (s pb x yw idx : Int) (hs : s = 2 ∨ s = 4)
    (hidx : 0 ≤ idx ∧ idx < 2 ^ 31) (hrel : x + yw - pb = idx) :
    ((0 - (pb % 2 ^ 64 * s) % 2 ^ 64) % 2 ^ 64 + x * s + yw * s) % 2 ^ 64 = s * idx := by
  rcases hs with rfl | rfl <;> omega

/-- The window is in range for `convert`: width, height and pixel count fit an `int`, and so
do the two steps of the computation of `pixel_base`. -/
theorem convert_in_range (dw : Box2i) (hx : dw.min.x ≤ dw.max.x) (hy : dw.min.y ≤ dw.max.y)
    (hcount : (dw.max.x - dw.min.x + 1) * (dw.max.y - dw.min.y + 1) < 2 ^ 31)
    (hrow : -(2 ^ 31) ≤ dw.min.y * (dw.max.x - dw.min.x + 1) ∧
      dw.min.y * (dw.max.x - dw.min.x + 1) < 2 ^ 31)
    (hbase : -(2 ^ 31) ≤ dw.min.y * (dw.max.x - dw.min.x + 1) + dw.min.x ∧
      dw.min.y * (dw.max.x - dw.min.x + 1) + dw.min.x < 2 ^ 31) :
    pixel_width dw = dw.max.x - dw.min.x + 1 ∧
      pixel_count dw = (dw.max.x - dw.min.x + 1) * (dw.max.y - dw.min.y + 1) ∧
      pixel_base dw = dw.min.y * (dw.max.x - dw.min.x + 1) + dw.min.x := by
  have hWpos : 0 < dw.max.x - dw.min.x + 1 := by omega
  have hHpos : 0 < dw.max.y - dw.min.y + 1 := by omega
  have hW : dw.max.x - dw.min.x + 1 < 2 ^ 31 := by
    have := le_mul_of_one_le_right hWpos.le (show 1 ≤ dw.max.y - dw.min.y + 1 by omega)
    omega
  have hH : dw.max.y - dw.min.y + 1 < 2 ^ 31 := by
    have := le_mul_of_one_le_left hHpos.le (show 1 ≤ dw.max.x - dw.min.x + 1 by omega)
    omega
  have hsize := box_size_nonempty dw hx hy hW hH
  have hwidth : pixel_width dw = dw.max.x - dw.min.x + 1 := by
    unfold pixel_width
    rw [hsize]
    simp only
    exact to_int_of_range _ (by constructor <;> omega)
  refine ⟨hwidth, ?_, ?_⟩
  · unfold pixel_count
    rw [hsize]
    simp only
    rw [to_int_of_range (dw.max.y - dw.min.y + 1) (by constructor <;> omega),
      to_int_of_range (dw.max.x - dw.min.x + 1) (by constructor <;> omega)]
    have hpos := mul_pos hWpos hHpos
    rw [mul_comm]
    exact to_int_of_range _ (by constructor <;> omega)
  · unfold pixel_base
    rw [hwidth, to_int_of_range _ hrow, to_int_of_range _ hbase]

theorem pixel_offset_eq (dw : Box2i) (type : PixelType) (x y : Int)
    (hx : dw.min.x ≤ x ∧ x ≤ dw.max.x) (hy : dw.min.y ≤ y ∧ y ≤ dw.max.y)
    (hcount : (dw.max.x - dw.min.x + 1) * (dw.max.y - dw.min.y + 1) < 2 ^ 31)
    (hrow : -(2 ^ 31) ≤ dw.min.y * (dw.max.x - dw.min.x + 1) ∧
      dw.min.y * (dw.max.x - dw.min.x + 1) < 2 ^ 31)
    (hbase : -(2 ^ 31) ≤ dw.min.y * (dw.max.x - dw.min.x + 1) + dw.min.x ∧
      dw.min.y * (dw.max.x - dw.min.x + 1) + dw.min.x < 2 ^ 31) :
    (convert_slice dw type).pixel_offset x y =
      samplesize type * ((y - dw.min.y) * (dw.max.x - dw.min.x + 1) + (x - dw.min.x)) := by
  obtain ⟨hwidth, _, hpb⟩ := convert_in_range dw (by omega) (by omega) hcount hrow hbase
  have hs := samplesize_cases type
  obtain ⟨hidx0, hidx1⟩ := window_index_bounds (dw.max.x - dw.min.x + 1)
    (dw.max.y - dw.min.y + 1) (x - dw.min.x) (y - dw.min.y) (by omega) (by omega)
  have hWpos : 0 < dw.max.x - dw.min.x + 1 := by omega
  have hW : dw.max.x - dw.min.x + 1 < 2 ^ 31 := by
    have := le_mul_of_one_le_right hWpos.le (show 1 ≤ dw.max.y - dw.min.y + 1 by omega)
    omega
  have hstride : (to_size_t (pixel_width dw) * samplesize type) % 2 ^ 64 =
      (dw.max.x - dw.min.x + 1) * samplesize type := by
    rw [hwidth]
    unfold to_size_t
    rcases hs with h | h <;> rw [h] <;> omega
  unfold Slice.pixel_offset convert_slice
  simp only [hstride]
  unfold to_size_t
  have hy2 : y * ((dw.max.x - dw.min.x + 1) * samplesize type) =
      (y * (dw.max.x - dw.min.x + 1)) * samplesize type := by ring
  rw [hy2]
  apply slice_offset_arith _ _ _ _ _ hs ⟨hidx0, by omega⟩
  rw [hpb]
  ring

/-- In range, `convert` addresses the pixels of the window inside the buffer: for a data
window whose pixel count and `pixel_base` computation fit an `int`, and a pixel `(x, y)`
inside it, with `W = max.x - min.x + 1`, `H = max.y - min.y + 1` and `s` the sample size: the
byte offset equals `s * ((y - min.y) * W + (x - min.x))`, lies in `[0, s * W * H - s]`, its `s`
bytes end inside the buffer of `s * W * H` bytes, and a different pixel of the window addresses
an `s`-byte range disjoint from this one. -/
theorem convert_slice_addressing_in_range (dataWindow : Box2i) (type : PixelType) (x y : Int)
    (hx : dataWindow.min.x ≤ x ∧ x ≤ dataWindow.max.x)
    (hy : dataWindow.min.y ≤ y ∧ y ≤ dataWindow.max.y)
    (hcount : (dataWindow.max.x - dataWindow.min.x + 1) *
      (dataWindow.max.y - dataWindow.min.y + 1) < 2 ^ 31)
    (hrow : -(2 ^ 31) ≤ dataWindow.min.y * (dataWindow.max.x - dataWindow.min.x + 1) ∧
      dataWindow.min.y * (dataWindow.max.x - dataWindow.min.x + 1) < 2 ^ 31)
    (hbase : -(2 ^ 31) ≤
        dataWindow.min.y * (dataWindow.max.x - dataWindow.min.x + 1) + dataWindow.min.x ∧
      dataWindow.min.y * (dataWindow.max.x - dataWindow.min.x + 1) + dataWindow.min.x
        < 2 ^ 31) :
    (samplesize type = 2 ∨ samplesize type = 4) ∧
      channelstore_size dataWindow type =
        samplesize type * (dataWindow.max.x - dataWindow.min.x + 1) *
          (dataWindow.max.y - dataWindow.min.y + 1) ∧
      (convert_slice dataWindow type).pixel_offset x y =
        samplesize type *
          ((y - dataWindow.min.y) * (dataWindow.max.x - dataWindow.min.x + 1)
            + (x - dataWindow.min.x)) ∧
      0 ≤ (convert_slice dataWindow type).pixel_offset x y ∧
      (convert_slice dataWindow type).pixel_offset x y ≤
        samplesize type * (dataWindow.max.x - dataWindow.min.x + 1) *
          (dataWindow.max.y - dataWindow.min.y + 1) - samplesize type ∧
      (convert_slice dataWindow type).pixel_offset x y + samplesize type ≤
        channelstore_size dataWindow type ∧
      ∀ x2 y2 : Int, dataWindow.min.x ≤ x2 ∧ x2 ≤ dataWindow.max.x →
        dataWindow.min.y ≤ y2 ∧ y2 ≤ dataWindow.max.y → ¬ (x = x2 ∧ y = y2) →
        (convert_slice dataWindow type).pixel_offset x2 y2 + samplesize type ≤
            (convert_slice dataWindow type).pixel_offset x y ∨
          (convert_slice dataWindow type).pixel_offset x y + samplesize type ≤
            (convert_slice dataWindow type).pixel_offset x2 y2 := by
  obtain ⟨_, hpc, _⟩ := convert_in_range dataWindow (by omega) (by omega) hcount hrow hbase
  have hs := samplesize_cases type
  have hspos : 0 < samplesize type := by rcases hs with h | h <;> omega
  have hcpos : 0 < (dataWindow.max.x - dataWindow.min.x + 1) *
      (dataWindow.max.y - dataWindow.min.y + 1) := mul_pos (by omega) (by omega)
  have hstore : channelstore_size dataWindow type =
      samplesize type * (dataWindow.max.x - dataWindow.min.x + 1) *
        (dataWindow.max.y - dataWindow.min.y + 1) := by
    unfold channelstore_size to_size_t
    rw [hpc, mul_assoc]
    rcases hs with h | h <;> rw [h] <;> omega
  have hoff := pixel_offset_eq dataWindow type x y hx hy hcount hrow hbase
  obtain ⟨hidx0, hidx1⟩ := window_index_bounds (dataWindow.max.x - dataWindow.min.x + 1)
    (dataWindow.max.y - dataWindow.min.y + 1) (x - dataWindow.min.x) (y - dataWindow.min.y)
    (by omega) (by omega)
  have hlow : 0 ≤ (convert_slice dataWindow type).pixel_offset x y := by
    rw [hoff]; exact mul_nonneg hspos.le hidx0
  have hhigh : (convert_slice dataWindow type).pixel_offset x y + samplesize type ≤
      samplesize type * (dataWindow.max.x - dataWindow.min.x + 1) *
        (dataWindow.max.y - dataWindow.min.y + 1) := by
    rw [hoff]
    have := mul_le_mul_of_nonneg_left hidx1 hspos.le
    calc samplesize type * ((y - dataWindow.min.y) * (dataWindow.max.x - dataWindow.min.x + 1)
            + (x - dataWindow.min.x)) + samplesize type
        = samplesize type * ((y - dataWindow.min.y) * (dataWindow.max.x - dataWindow.min.x + 1)
            + (x - dataWindow.min.x) + 1) := by ring
      _ ≤ samplesize type * ((dataWindow.max.x - dataWindow.min.x + 1) *
            (dataWindow.max.y - dataWindow.min.y + 1)) := this
      _ = samplesize type * (dataWindow.max.x - dataWindow.min.x + 1) *
            (dataWindow.max.y - dataWindow.min.y + 1) := by ring
  refine ⟨hs, hstore, hoff, hlow, by omega, by rw [hstore]; exact hhigh, ?_⟩
  intro x2 y2 hx2 hy2 hne
  rw [hoff, pixel_offset_eq dataWindow type x2 y2 hx2 hy2 hcount hrow hbase]
  have hap := window_index_apart (dataWindow.max.x - dataWindow.min.x + 1)
    (x - dataWindow.min.x) (y - dataWindow.min.y) (x2 - dataWindow.min.x)
    (y2 - dataWindow.min.y) (by omega) (by omega) (by
      intro h; apply hne; constructor <;> omega)
  rcases hap with h | h
  · left
    have := mul_le_mul_of_nonneg_left h hspos.le
    calc samplesize type * ((y2 - dataWindow.min.y) * (dataWindow.max.x - dataWindow.min.x + 1)
            + (x2 - dataWindow.min.x)) + samplesize type
        = samplesize type * ((y2 - dataWindow.min.y) *
            (dataWindow.max.x - dataWindow.min.x + 1) + (x2 - dataWindow.min.x) + 1) := by ring
      _ ≤ _ := this
  · right
    have := mul_le_mul_of_nonneg_left h hspos.le
    calc samplesize type * ((y - dataWindow.min.y) * (dataWindow.max.x - dataWindow.min.x + 1)
            + (x - dataWindow.min.x)) + samplesize type
        = samplesize type * ((y - dataWindow.min.y) *
            (dataWindow.max.x - dataWindow.min.x + 1) + (x - dataWindow.min.x) + 1) := by ring
      _ ≤ _ := this

/-- The window `[-2..1] x [-3..0]` of a `HALF` channel, with a negative origin, is in range:
its buffer has 32 bytes, the pixel `(-2, -3)` is at offset 0 and the pixel `(1, 0)` at offset
30, and the two bytes of the latter end inside the buffer. -/
theorem convert_slice_addressing_in_range_example :
    (convert_slice ⟨⟨-2, -3⟩, ⟨1, 0⟩⟩ .HALF).pixel_offset (-2) (-3) = 0 ∧
      (convert_slice ⟨⟨-2, -3⟩, ⟨1, 0⟩⟩ .HALF).pixel_offset 1 0 = 30 ∧
      channelstore_size ⟨⟨-2, -3⟩, ⟨1, 0⟩⟩ .HALF = 32 ∧
      (convert_slice ⟨⟨-2, -3⟩, ⟨1, 0⟩⟩ .HALF).pixel_offset 1 0 + samplesize .HALF ≤
        channelstore_size ⟨⟨-2, -3⟩, ⟨1, 0⟩⟩ .HALF :=
  ⟨by decide, by decide, by decide,
    (convert_slice_addressing_in_range ⟨⟨-2, -3⟩, ⟨1, 0⟩⟩ .HALF 1 0 (by decide) (by decide)
      (by decide) (by decide) (by decide)).2.2.2.2.2.1⟩

/-- C11 fails on the code: for the data window `[0..4095] x [1000000..1000001]` of a `FLOAT`
channel, 4096 by 2 pixels, the buffer has 32768 bytes and the claim puts the first pixel
`(0, 1000000)` at offset `4 * ((1000000 - 1000000) * 4096 + (0 - 0)) = 0`.  The product
`min.y * pixel_width = 4096000000` does not fit the `int` that holds `pixel_base`; reduced to
32 bits it is `-198967296`, and the slice addresses the first pixel at offset
`17179869184 = 2 ^ 34`, outside the buffer. -/
theorem convert_slice_overflow :
    pixel_width ⟨⟨0, 1000000⟩, ⟨4095, 1000001⟩⟩ = 4096 ∧
      pixel_count ⟨⟨0, 1000000⟩, ⟨4095, 1000001⟩⟩ = 8192 ∧
      channelstore_size ⟨⟨0, 1000000⟩, ⟨4095, 1000001⟩⟩ .FLOAT = 32768 ∧
      (1000000 : Int) * 4096 + 0 = 4096000000 ∧
      pixel_base ⟨⟨0, 1000000⟩, ⟨4095, 1000001⟩⟩ = -198967296 ∧
      samplesize .FLOAT * ((1000000 - 1000000) * (4095 - 0 + 1) + (0 - 0)) = 0 ∧
      (convert_slice ⟨⟨0, 1000000⟩, ⟨4095, 1000001⟩⟩ .FLOAT).pixel_offset 0 1000000 =
        17179869184 ∧
      ¬ ((convert_slice ⟨⟨0, 1000000⟩, ⟨4095, 1000001⟩⟩ .FLOAT).pixel_offset 0 1000000 +
          samplesize .FLOAT ≤ channelstore_size ⟨⟨0, 1000000⟩, ⟨4095, 1000001⟩⟩ .FLOAT) := by
  refine ⟨by decide, by decide, by decide, by decide, by decide, by decide, by decide,
    by decide⟩

/-! ## Termination of `make_unique_names` -/

theorem unique_name_loop_congr (names names2 : List Str) (hname : Str) (i fuel : Nat) (s : Str)
    (backup : Nat) (h : ∀ x, x ∈ names ↔ x ∈ names2) :
    unique_name_loop names hname i fuel s backup =
      unique_name_loop names2 hname i fuel s backup := by
  induction fuel generalizing s backup with
  | zero => rfl
  | succ fuel ih =>
    unfold unique_name_loop
    simp only [h, ih]

theorem unique_name_loop_more_fuel (names : List Str) (hname : Str) (i fuel k : Nat) (s : Str)
    (backup : Nat) (r : Str) (h : unique_name_loop names hname i fuel s backup = some r) :
    unique_name_loop names hname i (fuel + k) s backup = some r := by
  induction fuel generalizing s backup with
  | zero => simp [unique_name_loop] at h
  | succ fuel ih =>
    have hk : fuel + 1 + k = (fuel + k) + 1 := by omega
    rw [hk]
    unfold unique_name_loop at h ⊢
    simp only at h ⊢
    split
    · rename_i hin
      rw [if_pos hin] at h
      exact ih _ _ h
    · rename_i hin
      rw [if_neg hin] at h
      exact h

theorem make_unique_names_from_fuel (names : List Str) (i : Nat) (hs : List Header) :
    make_unique_names_from names i hs ≠ .error .outOfFuel := by
  induction hs generalizing names i with
  | nil => simp [make_unique_names_from]
  | cons h rest ih =>
    unfold make_unique_names_from
    cases hn : h.name with
    | none => simp
    | some base =>
      simp only
      split
      · obtain ⟨s, hs1, _⟩ := unique_name_loop_enough names base i
        rw [hs1]
        simp only
        have := ih (names.insert s) (i + 1)
        split
        · simp
        · rename_i e he
          intro hc
          cases hc
          exact this he
      · have := ih (names.insert base) (i + 1)
        split
        · simp
        · rename_i e he
          intro hc
          cases hc
          exact this he

/-- C12: `make_unique_names` terminates.  The embedding of the do-while loop uses one unit of
fuel for each iteration.  Whatever the committed names `names`, the name `hname` and the index
`i`, the loop ends within one more iteration than there are distinct committed names: with
that much fuel, and with any larger amount, it returns the same name, which is not committed.
So the fuel is never used up inside `make_unique_names`, on any sequence of headers, and on
headers that all have a name the function returns a result. -/
theorem make_unique_names_terminates (headers : List Header)
    (hnamed : ∀ h ∈ headers, h.hasName = true) (names : List Str) (hname : Str) (i : Nat) :
    (∃ out, make_unique_names headers = .ok out) ∧
      (∀ hs : List Header, make_unique_names hs ≠ .error .outOfFuel) ∧
      ∃ r, unique_name_loop names hname i (names.dedup.length + 1) [] 1 = some r ∧ r ∉ names ∧
        ∀ fuel, names.dedup.length + 1 ≤ fuel →
          unique_name_loop names hname i fuel [] 1 = some r := by
  refine ⟨?_, fun hs => make_unique_names_from_fuel [] 0 hs, ?_⟩
  · obtain ⟨out, h1, _⟩ := make_unique_names_from_ok [] 0 headers hnamed
    exact ⟨out, h1⟩
  · obtain ⟨r, hr1, hr2⟩ := unique_name_loop_enough names.dedup hname i
    have hcongr : ∀ fuel, unique_name_loop names hname i fuel [] 1 =
        unique_name_loop names.dedup hname i fuel [] 1 :=
      fun fuel => unique_name_loop_congr names names.dedup hname i fuel [] 1
        (fun x => List.mem_dedup.symm)
    refine ⟨r, by rw [hcongr]; exact hr1, fun h => hr2 (List.mem_dedup.mpr h), ?_⟩
    intro fuel hfuel
    obtain ⟨k, rfl⟩ := Nat.exists_eq_add_of_le hfuel
    rw [hcongr]
    exact unique_name_loop_more_fuel names.dedup hname i _ k [] 1 r hr1

/-- C12, at concrete values: with the committed names "a" and "a_1_1" the loop for the name
"a" at index 1 needs two iterations and returns "a_1_1a_1_2"; one unit of fuel is not enough,
two and three units give this name. -/
theorem make_unique_names_terminates_witness :
    unique_name_loop ["a".toList, "a_1_1".toList] "a".toList 1 1 [] 1 = none ∧
      unique_name_loop ["a".toList, "a_1_1".toList] "a".toList 1 2 [] 1 =
        some "a_1_1a_1_2".toList ∧
      unique_name_loop ["a".toList, "a_1_1".toList] "a".toList 1 3 [] 1 =
        some "a_1_1a_1_2".toList ∧
      ((∃ out, make_unique_names [sample_header "a".toList, sample_header "a".toList] =
          .ok out) ∧
        (∀ hs : List Header, make_unique_names hs ≠ .error .outOfFuel) ∧
        ∃ r, unique_name_loop ["a".toList, "a_1_1".toList] "a".toList 1
              (["a".toList, "a_1_1".toList].dedup.length + 1) [] 1 = some r ∧
          r ∉ ["a".toList, "a_1_1".toList] ∧
          ∀ fuel, ["a".toList, "a_1_1".toList].dedup.length + 1 ≤ fuel →
            unique_name_loop ["a".toList, "a_1_1".toList] "a".toList 1 fuel [] 1 = some r) :=
  ⟨by decide, by decide, by decide,
    make_unique_names_terminates [sample_header "a".toList, sample_header "a".toList]
      (by decide) ["a".toList, "a_1_1".toList] "a".toList 1⟩

end ExrMultipart
